import Mathlib

/-!
Verification development for the AUTOMA hypothesis-generation pipeline
(src/app.py).  The pipeline pieces embedded here are:

  * tokenize / build_keyword_index / map_event_to_techniques_smart
    (candidate matcher, app.py lines 54-110),
  * expand_paths (bounded BFS path expander, app.py lines 113-163),
  * score_matching / score_success / score_criticality / combined_score
    (scorer, app.py lines 166-190),
  * the weight normalization and the sort-and-truncate ranker inlined in
    the index route (app.py lines 693-720).

Modelling conventions:
  * Python strings are lists of characters (Str); str.lower is modelled on
    ASCII letters (other characters are untouched).
  * Python ints are ℤ; float arithmetic of the scorer is modelled exactly
    over ℚ (no claim here depends on rounding of binary floats).
  * A Python dict is an association list whose keys are unique; a Python
    set is a duplicate-free list.  Python set iteration order is
    unspecified (hash randomized across interpreter runs), so every place
    the code linearizes a set (list(neighbors) in expand_paths) takes an
    explicit enumeration function sigma as a parameter.
  * The while loop of expand_paths is modelled with explicit fuel; the
    default fuel is proved sufficient (claim C9), so the fueled function
    agrees with the Python loop.
  * The fuzzy similarity backend (rapidfuzz / difflib, app.py 69-76) is an
    external library; it is modelled as an arbitrary similarity function
    simf returning a rational on the 0..100 scale, as the spec describes
    ("a pluggable string-similarity strategy behind one interface").
-/

/-- Python strings as lists of characters. -/
abbrev Str := List Char

/-- ASCII lowercasing of one character (models str.lower per character). -/
def lowerChar (c : Char) : Char :=
  if 'A' ≤ c ∧ c ≤ 'Z' then Char.ofNat (c.toNat + 32) else c

/-- str.lower applied to a whole string. -/
def lowerStr (s : Str) : Str := s.map lowerChar

/-- The character class [A-Za-z0-9] of the tokenizer's regex. -/
def isAlnumChar (c : Char) : Bool :=
  ('A' ≤ c ∧ c ≤ 'Z') ∨ ('a' ≤ c ∧ c ≤ 'z') ∨ ('0' ≤ c ∧ c ≤ '9')

/-- Maximal runs of alphanumeric characters (re.findall of [A-Za-z0-9]+).
The first argument is the reversed run currently being scanned. -/
def alnumRuns : Str → Str → List Str
  | acc, [] => if acc = [] then [] else [acc.reverse]
  | acc, c :: cs =>
    if isAlnumChar c then alnumRuns (c :: acc) cs
    else if acc = [] then alnumRuns [] cs else acc.reverse :: alnumRuns [] cs

/-- app.py tokenize: lowercase, then split into alphanumeric runs. -/
def tokenize (text : Str) : List Str := alnumRuns [] (lowerStr text)

/-- Python substring containment (needle in hay). -/
def strContains (hay needle : Str) : Bool :=
  (List.range (hay.length + 1)).any (fun i => (hay.drop i).take needle.length == needle)

/-- Stop index of the Python slice l[:k] (negative k counts from the end). -/
def pyStop (n : ℕ) (k : ℤ) : ℕ :=
  if 0 ≤ k then min k.toNat n else ((n : ℤ) + k).toNat

/-- Python truncation l[:k]. -/
def pyTruncate (l : List α) (k : ℤ) : List α := l.take (pyStop l.length k)

/-- Python slice l[a:b] for a natural start index. -/
def pySliceFrom (l : List α) (a : ℕ) (b : ℤ) : List α :=
  (l.take (pyStop l.length b)).drop a

/-- One technique record of the knowledge base (the description field of
the JSON is never read by the pipeline and is omitted). -/
structure Tech where
  name : Str
  tactics : List Str
deriving DecidableEq

/-- The knowledge base: a Python dict tid -> Tech, i.e. an association
list with unique keys, in insertion order. -/
abbrev KB := List (Str × Tech)

/-- app.py HISTORICAL_SEQUENCES. -/
def HISTORICAL_SEQUENCES : List (List Str) :=
  [ ["T1059.001".toList, "T1059".toList, "T1041".toList],
    ["T1059.001".toList, "T1027".toList, "T1041".toList],
    ["T1047".toList, "T1059".toList, "T1027".toList] ]

/-- An attack path: an ordered list of technique identifiers. -/
abbrev APath := List Str

/-- paths.add(tuple(p)) on the Python set of paths, modelled as a
duplicate-free list in insertion order. -/
def insertPath (ps : List APath) (p : APath) : List APath :=
  if ps.contains p then ps else ps ++ [p]

/-- The historical-truncation phase of expand_paths (app.py 117-122):
for every historical sequence containing a seed, add the subsequence
seq[idx : idx + max_depth] where idx is the first occurrence of the seed. -/
def histPhase (seeds : List Str) (md : ℤ) : List APath :=
  HISTORICAL_SEQUENCES.foldl
    (fun acc seq =>
      seeds.foldl
        (fun acc s =>
          if seq.contains s then
            insertPath acc (pySliceFrom seq (seq.findIdx (· == s)) ((seq.findIdx (· == s) : ℤ) + md))
          else acc)
        acc)
    []

/-- tactic_map (app.py 125-128): the techniques of the knowledge base that
list the given tactic, in knowledge-base order. -/
def tacticMap (kb : KB) (tct : Str) : List Str :=
  (kb.filter (fun e => e.2.tactics.contains tct)).map (·.1)

/-- kb.get(last, ...).get("tactics", []). -/
def tacticsOf (kb : KB) (tid : Str) : List Str :=
  match kb.lookup tid with
  | some m => m.tactics
  | none => []

/-- Successors of a technique in the historical sequences
(app.py 145-148). -/
def histNextOf (last : Str) : List Str :=
  HISTORICAL_SEQUENCES.flatMap
    (fun seq => (seq.dropLast.zip seq.tail).filterMap
      (fun p => if p.1 = last then some p.2 else none))

/-- The neighbor set of a technique (app.py 142-148), as a duplicate-free
list.  Its enumeration order as a Python set is unspecified, so callers
apply an explicit enumeration function to it. -/
def canonicalNeighbors (kb : KB) (last : Str) : List Str :=
  (((tacticsOf kb last).flatMap (tacticMap kb)) ++ histNextOf last).dedup

/-- path[-1] (frontier paths are always non-empty). -/
def pyLast (p : APath) : Str := p.getLastD []

/-- State of the BFS while loop: the FIFO frontier of partial paths and
the accumulated path set. -/
structure BfsSt where
  frontier : List APath
  paths : List APath
deriving DecidableEq

/-- One seed's while loop of expand_paths (app.py 133-156), with explicit
fuel.  sigma is the (hash-order) enumeration of the neighbor set. -/
def bfsRun (sigma : List Str → List Str) (kb : KB) (md nc gc : ℤ) :
    ℕ → BfsSt → BfsSt
  | 0, st => st
  | fuel + 1, st =>
    match st.frontier with
    | [] => st
    | p :: rest =>
      if gc ≤ (st.paths.length : ℤ) then { st with frontier := [] }
      else if md ≤ (p.length : ℤ) then
        bfsRun sigma kb md nc gc fuel { frontier := rest, paths := insertPath st.paths p }
      else
        let ns := pyTruncate (sigma (canonicalNeighbors kb (pyLast p))) nc
        let children := (ns.filter (fun n => ! p.contains n)).map (fun n => p ++ [n])
        bfsRun sigma kb md nc gc fuel
          { frontier := rest ++ children, paths := children.foldl insertPath st.paths }

/-- Every identifier that can ever occur on a path: knowledge-base keys,
historical successors, and the seeds.  Used only to size the fuel. -/
def alphabet (kb : KB) (seeds : List Str) : List Str :=
  (kb.map (·.1) ++ HISTORICAL_SEQUENCES.flatMap List.tail ++ seeds).dedup

/-- Fuel sufficient for one seed's while loop (proved sufficient below):
one more than the potential (B+2)^B of the initial frontier, where B
bounds both the length of any duplicate-free path and the width of any
truncated neighbor list. -/
def defaultFuel (kb : KB) (seeds : List Str) : ℕ :=
  ((alphabet kb seeds).length + 2) ^ (alphabet kb seeds).length + 1

/-- expand_paths (app.py 113-163) with explicit fuel for the BFS loops. -/
def expandPathsFuel (fuel : ℕ) (sigma : List Str → List Str)
    (seeds : List Str) (kb : KB) (md nc gc : ℤ) : List APath :=
  let paths0 := histPhase seeds md
  let paths1 := seeds.foldl
    (fun pa seed => (bfsRun sigma kb md nc gc fuel { frontier := [[seed]], paths := pa }).paths)
    paths0
  if paths1 = [] then seeds.dedup.map (fun t => [t]) else paths1

/-- app.py expand_paths.  The returned list is duplicate-free (it
enumerates the Python set of paths; its order, unspecified in Python, is
modelled as insertion order). -/
def expand_paths (sigma : List Str → List Str) (seeds : List Str) (kb : KB)
    (md nc gc : ℤ) : List APath :=
  expandPathsFuel (defaultFuel kb seeds) sigma seeds kb md nc gc

/-- Python str.startswith. -/
def strStartsWith (s pre : Str) : Bool := s.take pre.length == pre

/-- The defaultdict(int) score map of the matcher: score[t] += d updates
the binding of t, creating it (from default 0) if absent.  New keys are
appended, matching Python dict insertion order. -/
def bump : List (Str × ℤ) → Str → ℤ → List (Str × ℤ)
  | [], t, d => [(t, d)]
  | (k, v) :: rest, t, d =>
    if k = t then (k, v + d) :: rest else (k, v) :: bump rest t d

/-- score[t] of the score map (0 if absent, as for defaultdict(int)). -/
def getScore (m : List (Str × ℤ)) (t : Str) : ℤ := ((m.lookup t).getD 0)

/-- build_keyword_index (app.py 57-67): idx[tk], the set of techniques
whose display name contains the token tk of length at least 3, as a list
in knowledge-base order (the Python set's iteration order is unspecified;
every claim below depends only on its membership). -/
def keywordBucket (kb : KB) (tk : Str) : List Str :=
  if 3 ≤ tk.length then
    (kb.filter (fun e => (tokenize e.2.name).contains tk)).map (·.1)
  else []

/-- The token-match loop of map_event_to_techniques_smart (app.py 91-94):
for each event token present in the index, every technique in its bucket
gains 3. -/
def tokenPhase (kb : KB) (toks : List Str) (m : List (Str × ℤ)) : List (Str × ℤ) :=
  toks.foldl
    (fun m tk =>
      if keywordBucket kb tk ≠ [] then
        (keywordBucket kb tk).foldl (fun m tid => bump m tid 3) m
      else m)
    m

/-- The substring-and-fuzzy loop of map_event_to_techniques_smart
(app.py 97-106): each technique gains 2 per event token contained in its
lowercase name, plus int(sim / 25) when the fuzzy similarity of the
lowercased event text and name exceeds 40. -/
def namePhase (simf : Str → Str → ℚ) (event : Str) (kb : KB)
    (m : List (Str × ℤ)) : List (Str × ℤ) :=
  kb.foldl
    (fun m e =>
      let lname := lowerStr e.2.name
      let m1 := (tokenize event).foldl
        (fun m tk => if strContains lname tk then bump m e.1 2 else m) m
      let sim := simf (lowerStr event) lname
      if 40 < sim then bump m1 e.1 ⌊sim / 25⌋ else m1)
    m

/-- The full score dictionary of map_event_to_techniques_smart. -/
def scoreMap (simf : Str → Str → ℚ) (event : Str) (kb : KB) : List (Str × ℤ) :=
  namePhase simf event kb (tokenPhase kb (tokenize event) [])

/-- Python sorted(..., key=key, reverse=True) sorts by this relation:
descending in the key, stable.  -/
def descBy (key : α → β) [LinearOrder β] (a b : α) : Prop := key b ≤ key a

instance (key : α → β) [LinearOrder β] : DecidableRel (descBy key) :=
  fun a b => inferInstanceAs (Decidable (key b ≤ key a))

instance (key : α → β) [LinearOrder β] : IsTotal α (descBy key) :=
  ⟨fun a b => (le_total (key b) (key a)).imp id id⟩

instance (key : α → β) [LinearOrder β] : IsTrans α (descBy key) :=
  ⟨fun _ _ _ h h' => le_trans h' h⟩

/-- app.py map_event_to_techniques_smart (lines 78-110): build the score
dictionary, sort its items by score descending (Python's sort is stable;
insertionSort on descBy is the same stable sort), truncate to top_n, and
return the technique identifiers. -/
def map_event_to_techniques_smart (simf : Str → Str → ℚ) (event : Str)
    (kb : KB) (topN : ℕ) : List Str :=
  ((List.insertionSort (descBy Prod.snd) (scoreMap simf event kb)).take topN).map (·.1)

/-- app.py TECH_CRITICALITY (lines 35-41), as the explicit total function
the defaultdict denotes under .get(t, 10). -/
def TECH_CRITICALITY (t : Str) : ℚ :=
  if t = "T1041".toList then 90
  else if t = "T1059".toList then 40
  else if t = "T1059.001".toList then 30
  else if t = "T1027".toList then 50
  else if t = "T1047".toList then 35
  else 10

/-- app.py score_matching (lines 166-169).  seeds is the candidate set
(passed as a Python set; only membership is used). -/
def score_matching (path : APath) (seeds : List Str) : ℚ :=
  if path = [] then 0
  else (path.countP (fun t => seeds.contains t) : ℚ) / (path.length : ℚ)

/-- app.py score_success (lines 171-177): base = min(0.2 + 0.12*len, 0.95),
plus 0.03 for a T1059-family technique, plus 0.03 for T1027, capped at 1.0
(the two += statements are written as added if-terms). -/
def score_success (path : APath) : ℚ :=
  min (min (0.2 + 0.12 * (path.length : ℚ)) 0.95
    + (if path.any (fun t => strStartsWith t "T1059".toList) then 0.03 else 0)
    + (if path.any (fun t => t == "T1027".toList) then 0.03 else 0)) 1.0

/-- app.py score_criticality (lines 179-182).  max of the per-technique
criticalities is taken by folding max with base 0; every criticality is
at least 10, so this equals Python's max on the non-empty list. -/
def score_criticality (path : APath) : ℚ :=
  if path = [] then 0
  else ((path.map TECH_CRITICALITY).foldr max 0) / 100

/-- The four score components returned by combined_score. -/
structure ScoreVec where
  matching : ℚ
  success : ℚ
  criticality : ℚ
  overall : ℚ
deriving DecidableEq

/-- app.py combined_score (lines 184-190). -/
def combined_score (path : APath) (seeds : List Str) (w1 w2 w3 : ℚ) : ScoreVec :=
  let m := score_matching path seeds
  let s := score_success path
  let c := score_criticality path
  { matching := m, success := s, criticality := c,
    overall := w1 * m + w2 * s + w3 * c }

/-- The weight handling of the index route (app.py 702-710): none models
the float(...) calls raising (non-numeric form input), which yields the
default triple; numeric weights are divided by max(1e-9, their sum). -/
def normalizeWeights : Option (ℚ × ℚ × ℚ) → ℚ × ℚ × ℚ
  | none => (0.4, 0.3, 0.3)
  | some (a, b, c) =>
    let s := max 1e-9 (a + b + c)
    (a / s, b / s, c / s)

/-- A scored hypothesis as assembled by the index route (app.py 716-718). -/
structure Hyp where
  path : APath
  scores : ScoreVec
deriving DecidableEq

/-- The ranker inlined in the index route (app.py 719-720):
scored.sort(key=overall, reverse=True) followed by scored[:top_k].
Python's list.sort is stable; insertionSort on descBy is the same stable
sort.  top_k is used as parsed, an arbitrary int. -/
def rankHypotheses (scored : List Hyp) (k : ℤ) : List Hyp :=
  pyTruncate (List.insertionSort (descBy (fun h : Hyp => h.scores.overall)) scored) k

/-! ## Scorer and ranker facts (claims C3, C5, C6) -/

/-- Nonnegativity of the caller-supplied weight triple (none = the
non-numeric case). -/
def weightsNonneg : Option (ℚ × ℚ × ℚ) → Prop
  | none => True
  | some (a, b, c) => 0 ≤ a ∧ 0 ≤ b ∧ 0 ≤ c

/-- C3, counterexample.  The claim says weights whose sum is ≤ 0 are
replaced by the default triple 0.4/0.3/0.3; the code instead divides them
by max(1e-9, sum) = 1e-9, so the all-zero triple stays (0, 0, 0). -/
theorem c3_counterexample :
    normalizeWeights (some (0, 0, 0)) = ((0 : ℚ), (0 : ℚ), (0 : ℚ)) ∧
    normalizeWeights (some (0, 0, 0)) ≠ ((0.4 : ℚ), (0.3 : ℚ), (0.3 : ℚ)) := by
  have h : normalizeWeights (some (0, 0, 0)) = ((0 : ℚ), (0 : ℚ), (0 : ℚ)) := by
    norm_num [normalizeWeights]
  refine ⟨h, ?_⟩
  rw [h]
  intro heq
  have h1 := congrArg Prod.fst heq
  norm_num at h1

/-- C3, amended.  Non-numeric weights yield the default 0.4/0.3/0.3.
Numeric weights are divided by max(1e-9, their sum): whenever the sum is
at least the 1e-9 tolerance this renormalizes them to sum exactly 1
(whether or not they summed to 1 before); when the sum is ≤ 0 the code
divides by 1e-9 instead of falling back to the default triple. -/
theorem c3_weights_amended (a b c : ℚ) :
    normalizeWeights none = ((0.4 : ℚ), (0.3 : ℚ), (0.3 : ℚ)) ∧
    ((1e-9 : ℚ) ≤ a + b + c →
      normalizeWeights (some (a, b, c)) = (a / (a + b + c), b / (a + b + c), c / (a + b + c)) ∧
      a / (a + b + c) + b / (a + b + c) + c / (a + b + c) = 1) ∧
    (a + b + c ≤ 0 →
      normalizeWeights (some (a, b, c)) = (a / (1e-9 : ℚ), b / (1e-9 : ℚ), c / (1e-9 : ℚ))) := by
  refine ⟨rfl, fun h => ?_, fun h => ?_⟩
  · have hs : max (1e-9 : ℚ) (a + b + c) = a + b + c := max_eq_right h
    have hpos : (0 : ℚ) < a + b + c := lt_of_lt_of_le (by norm_num) h
    constructor
    · simp only [normalizeWeights, hs]
    · field_simp
  · have hs : max (1e-9 : ℚ) (a + b + c) = (1e-9 : ℚ) :=
      max_eq_left (le_trans h (by norm_num))
    simp only [normalizeWeights, hs]

/-- C3, witness for the amended theorem at the numeric triple (2, 1, 1). -/
theorem c3_weights_witness :
    normalizeWeights (some (2, 1, 1)) =
      ((2 : ℚ) / (2 + 1 + 1), (1 : ℚ) / (2 + 1 + 1), (1 : ℚ) / (2 + 1 + 1)) ∧
    (2 : ℚ) / (2 + 1 + 1) + 1 / (2 + 1 + 1) + 1 / (2 + 1 + 1) = 1 :=
  (c3_weights_amended 2 1 1).2.1 (by norm_num)

lemma score_matching_bounds (path : APath) (seeds : List Str) :
    0 ≤ score_matching path seeds ∧ score_matching path seeds ≤ 1 := by
  unfold score_matching
  split
  · norm_num
  · rename_i hne
    have hlen : 0 < (path.length : ℚ) := by
      have : path ≠ [] := hne
      have : 0 < path.length := List.length_pos.mpr this
      exact_mod_cast this
    constructor
    · positivity
    · rw [div_le_one hlen]
      exact_mod_cast List.countP_le_length _

lemma score_success_bounds (path : APath) :
    0 ≤ score_success path ∧ score_success path ≤ 1 := by
  unfold score_success
  have hL : (0 : ℚ) ≤ (path.length : ℚ) := by positivity
  have h1 : (0 : ℚ) ≤ min (0.2 + 0.12 * (path.length : ℚ)) 0.95 :=
    le_min (by linarith) (by norm_num)
  constructor
  · rw [le_min_iff]
    refine ⟨?_, by norm_num⟩
    split_ifs <;> linarith
  · exact le_trans (min_le_right _ _) (by norm_num)

lemma combined_score_matching (path : APath) (seeds : List Str) (w1 w2 w3 : ℚ) :
    (combined_score path seeds w1 w2 w3).matching = score_matching path seeds := rfl

lemma combined_score_success (path : APath) (seeds : List Str) (w1 w2 w3 : ℚ) :
    (combined_score path seeds w1 w2 w3).success = score_success path := rfl

lemma combined_score_criticality (path : APath) (seeds : List Str) (w1 w2 w3 : ℚ) :
    (combined_score path seeds w1 w2 w3).criticality = score_criticality path := rfl

lemma combined_score_overall (path : APath) (seeds : List Str) (w1 w2 w3 : ℚ) :
    (combined_score path seeds w1 w2 w3).overall =
      w1 * score_matching path seeds + w2 * score_success path + w3 * score_criticality path := rfl

lemma foldr_max_nonneg (l : List ℚ) : 0 ≤ l.foldr max 0 := by
  induction l with
  | nil => simp
  | cons x l ih => simpa using Or.inr ih

lemma foldr_max_le (l : List ℚ) (b : ℚ) (h0 : 0 ≤ b) (h : ∀ x ∈ l, x ≤ b) :
    l.foldr max 0 ≤ b := by
  induction l with
  | nil => simpa using h0
  | cons x l ih =>
    simp only [List.foldr_cons, max_le_iff]
    exact ⟨h x (by simp), ih (fun y hy => h y (by simp [hy]))⟩

lemma TECH_CRITICALITY_le (t : Str) : TECH_CRITICALITY t ≤ 90 := by
  unfold TECH_CRITICALITY
  split_ifs <;> norm_num

lemma score_criticality_bounds (path : APath) :
    0 ≤ score_criticality path ∧ score_criticality path ≤ 1 := by
  unfold score_criticality
  split
  · norm_num
  · constructor
    · exact div_nonneg (foldr_max_nonneg _) (by norm_num)
    · rw [div_le_one (by norm_num)]
      refine le_trans (foldr_max_le _ 90 (by norm_num) ?_) (by norm_num)
      intro x hx
      obtain ⟨t, _, rfl⟩ := List.mem_map.mp hx
      exact TECH_CRITICALITY_le t

lemma normalizeWeights_nonneg (w : Option (ℚ × ℚ × ℚ)) (hw : weightsNonneg w) :
    0 ≤ (normalizeWeights w).1 ∧ 0 ≤ (normalizeWeights w).2.1 ∧
    0 ≤ (normalizeWeights w).2.2 ∧
    (normalizeWeights w).1 + (normalizeWeights w).2.1 + (normalizeWeights w).2.2 ≤ 1 := by
  match w with
  | none => norm_num [normalizeWeights]
  | some (a, b, c) =>
    obtain ⟨ha, hb, hc⟩ := hw
    have hspos : (0 : ℚ) < max (1e-9 : ℚ) (a + b + c) :=
      lt_of_lt_of_le (by norm_num) (le_max_left _ _)
    refine ⟨div_nonneg ha hspos.le, div_nonneg hb hspos.le, div_nonneg hc hspos.le, ?_⟩
    have : a / max (1e-9 : ℚ) (a + b + c) + b / max (1e-9 : ℚ) (a + b + c) +
        c / max (1e-9 : ℚ) (a + b + c) = (a + b + c) / max (1e-9 : ℚ) (a + b + c) := by
      ring
    simp only [normalizeWeights]
    rw [this, div_le_one hspos]
    exact le_max_right _ _

/-- C5, counterexample.  The pipeline's weight handling does not force the
effective weights into [0, 1]: the numeric triple (2, -1, 0) sums to 1, is
passed through unchanged, and yields an overall score of 1.68 > 1 for the
path ["T1041"] with seed set containing T1041. -/
theorem c5_counterexample :
    normalizeWeights (some (2, -1, 0)) = ((2 : ℚ), (-1 : ℚ), (0 : ℚ)) ∧
    1 < (combined_score ["T1041".toList] ["T1041".toList] 2 (-1) 0).overall := by
  constructor
  · norm_num [normalizeWeights]
  · have hm : score_matching ["T1041".toList] ["T1041".toList] = 1 := by
      unfold score_matching
      rw [if_neg (by decide : ¬(["T1041".toList] : APath) = [])]
      rw [(by decide :
        (["T1041".toList] : APath).countP (fun t => (["T1041".toList] : List Str).contains t) = 1)]
      norm_num
    have hs : score_success ["T1041".toList] = 0.32 := by
      unfold score_success
      rw [if_neg (by decide :
        ¬((["T1041".toList] : APath).any (fun t => strStartsWith t "T1059".toList)) = true)]
      rw [if_neg (by decide :
        ¬((["T1041".toList] : APath).any (fun t => t == "T1027".toList)) = true)]
      norm_num [min_def]
    have hc : score_criticality ["T1041".toList] = 0.9 := by
      unfold score_criticality
      rw [if_neg (by decide : ¬(["T1041".toList] : APath) = [])]
      norm_num [TECH_CRITICALITY, max_def]
    rw [combined_score_overall, hm, hs, hc]
    norm_num

/-- C5, amended.  If the caller-supplied weights are nonnegative (or
non-numeric, in which case the default triple is used), then every
Hypothesis score component — matching, success, criticality, overall — of
any path scored by the pipeline lies in [0, 1].  With a negative supplied
weight the overall component can leave [0, 1] (see the counterexample). -/
theorem c5_scores_amended (w : Option (ℚ × ℚ × ℚ)) (hw : weightsNonneg w)
    (path : APath) (seeds : List Str) :
    (0 ≤ (combined_score path seeds (normalizeWeights w).1 (normalizeWeights w).2.1
        (normalizeWeights w).2.2).matching ∧
      (combined_score path seeds (normalizeWeights w).1 (normalizeWeights w).2.1
        (normalizeWeights w).2.2).matching ≤ 1) ∧
    (0 ≤ (combined_score path seeds (normalizeWeights w).1 (normalizeWeights w).2.1
        (normalizeWeights w).2.2).success ∧
      (combined_score path seeds (normalizeWeights w).1 (normalizeWeights w).2.1
        (normalizeWeights w).2.2).success ≤ 1) ∧
    (0 ≤ (combined_score path seeds (normalizeWeights w).1 (normalizeWeights w).2.1
        (normalizeWeights w).2.2).criticality ∧
      (combined_score path seeds (normalizeWeights w).1 (normalizeWeights w).2.1
        (normalizeWeights w).2.2).criticality ≤ 1) ∧
    (0 ≤ (combined_score path seeds (normalizeWeights w).1 (normalizeWeights w).2.1
        (normalizeWeights w).2.2).overall ∧
      (combined_score path seeds (normalizeWeights w).1 (normalizeWeights w).2.1
        (normalizeWeights w).2.2).overall ≤ 1) := by
  obtain ⟨hm0, hm1⟩ := score_matching_bounds path seeds
  obtain ⟨hs0, hs1⟩ := score_success_bounds path
  obtain ⟨hc0, hc1⟩ := score_criticality_bounds path
  obtain ⟨hw1, hw2, hw3, hwsum⟩ := normalizeWeights_nonneg w hw
  simp only [combined_score_matching, combined_score_success, combined_score_criticality,
    combined_score_overall]
  refine ⟨⟨hm0, hm1⟩, ⟨hs0, hs1⟩, ⟨hc0, hc1⟩, ?_, ?_⟩
  · have p1 := mul_nonneg hw1 hm0
    have p2 := mul_nonneg hw2 hs0
    have p3 := mul_nonneg hw3 hc0
    linarith
  · have p1 := mul_le_of_le_one_right hw1 hm1
    have p2 := mul_le_of_le_one_right hw2 hs1
    have p3 := mul_le_of_le_one_right hw3 hc1
    linarith

/-- C5, witness for the amended theorem at the default weights and the
path ["T1041"]. -/
theorem c5_scores_witness :
    0 ≤ (combined_score ["T1041".toList] ["T1041".toList] (normalizeWeights none).1
        (normalizeWeights none).2.1 (normalizeWeights none).2.2).overall ∧
    (combined_score ["T1041".toList] ["T1041".toList] (normalizeWeights none).1
        (normalizeWeights none).2.1 (normalizeWeights none).2.2).overall ≤ 1 :=
  (c5_scores_amended none trivial ["T1041".toList] ["T1041".toList]).2.2.2

lemma orderedInsert_filter_pos {α β : Type} (key : α → β) [LinearOrder β] (q : β)
    (a : α) (m : List α) (ha : key a = q) :
    (List.orderedInsert (descBy key) a m).filter (fun x => key x == q) =
      a :: m.filter (fun x => key x == q) := by
  induction m with
  | nil => simp [List.orderedInsert, ha]
  | cons b m ih =>
    by_cases hr : descBy key a b
    · rw [List.orderedInsert_of_le _ _ hr]
      simp [List.filter_cons, ha]
    · have hb : ¬ ((key b == q) = true) := by
        simp only [beq_iff_eq]
        intro h
        exact hr (le_of_eq (h.trans ha.symm))
      simp only [List.orderedInsert, if_neg hr, List.filter_cons, hb, if_false, ih]
      simp [ha]

lemma orderedInsert_filter_neg {α β : Type} (key : α → β) [LinearOrder β] (q : β)
    (a : α) (m : List α) (ha : key a ≠ q) :
    (List.orderedInsert (descBy key) a m).filter (fun x => key x == q) =
      m.filter (fun x => key x == q) := by
  induction m with
  | nil => simp [List.orderedInsert, ha]
  | cons b m ih =>
    by_cases hr : descBy key a b
    · rw [List.orderedInsert_of_le _ _ hr]
      simp [List.filter_cons, ha]
    · simp only [List.orderedInsert, if_neg hr, List.filter_cons, ih]

/-- Stability of the model of Python's stable descending sort: the
subsequence of elements with any fixed key value is unchanged. -/
lemma insertionSort_filter {α β : Type} (key : α → β) [LinearOrder β] (q : β)
    (l : List α) :
    (List.insertionSort (descBy key) l).filter (fun x => key x == q) =
      l.filter (fun x => key x == q) := by
  induction l with
  | nil => rfl
  | cons a l ih =>
    show (List.orderedInsert (descBy key) a (List.insertionSort (descBy key) l)).filter _ = _
    by_cases ha : key a = q
    · rw [orderedInsert_filter_pos key q a _ ha, ih]
      simp [List.filter_cons, ha]
    · rw [orderedInsert_filter_neg key q a _ ha, ih]
      simp [List.filter_cons, ha]

lemma filter_take_exists {α : Type} (p : α → Bool) :
    ∀ (k : ℕ) (l : List α), ∃ n, (l.take k).filter p = (l.filter p).take n := by
  intro k l
  induction l generalizing k with
  | nil => exact ⟨0, by simp⟩
  | cons a l ih =>
    cases k with
    | zero => exact ⟨0, by simp⟩
    | succ k =>
      obtain ⟨n, hn⟩ := ih k
      by_cases hp : p a
      · exact ⟨n + 1, by simp [List.filter_cons, hp, hn]⟩
      · exact ⟨n, by simp [List.filter_cons, hp, hn]⟩

/-- A concrete scored hypothesis used to exhibit the ranker's behaviour. -/
def cHypA : Hyp :=
  { path := ["T1041".toList],
    scores := { matching := 1, success := 1, criticality := 1, overall := 1 } }

/-- A concrete scored hypothesis used to instantiate the amended ranker
theorem. -/
def cHypB : Hyp :=
  { path := ["T1059".toList],
    scores := { matching := 0, success := 1, criticality := 1, overall := 1 } }

/-- C6, counterexample.  The claim says top_k is clamped into the range
1..10; the code uses it as given: with one scored hypothesis, top_k = 0
returns nothing, while the claimed clamp (to 1) would return the
hypothesis, as top_k = 1 does. -/
theorem c6_counterexample :
    rankHypotheses [cHypA] 0 = [] ∧ rankHypotheses [cHypA] 1 = [cHypA] := by
  constructor <;> rfl

/-- C6, amended.  The ranker sorts the scored paths descending by overall
score with a stable sort — the returned list is sorted, its elements come
from the input, and for every fixed overall value the hypotheses carrying
it are returned as an order-preserving prefix of their emission order —
and returns scored[:K] where K is used exactly as supplied (default 3 on
parse failure), with no clamping: for K >= 0 the output length is
min(K, number of scored paths). -/
theorem c6_ranker_amended (scored : List Hyp) (k : ℤ) (hk : 0 ≤ k) :
    List.Pairwise (fun a b : Hyp => b.scores.overall ≤ a.scores.overall)
      (rankHypotheses scored k) ∧
    (rankHypotheses scored k).length = min k.toNat scored.length ∧
    (∀ h ∈ rankHypotheses scored k, h ∈ scored) ∧
    (∀ q : ℚ, ∃ n, (rankHypotheses scored k).filter (fun h => h.scores.overall == q) =
      (scored.filter (fun h => h.scores.overall == q)).take n) := by
  have hperm := List.perm_insertionSort
    (descBy (fun h : Hyp => h.scores.overall)) scored
  have hlen := hperm.length_eq
  refine ⟨?_, ?_, ?_, ?_⟩
  · have hs := List.sorted_insertionSort
      (descBy (fun h : Hyp => h.scores.overall)) scored
    exact List.Pairwise.sublist (List.take_sublist _ _) hs
  · rw [rankHypotheses, pyTruncate, List.length_take, pyStop, if_pos hk, hlen]
    omega
  · intro h hh
    exact hperm.subset (List.mem_of_mem_take hh)
  · intro q
    obtain ⟨n, hn⟩ := filter_take_exists (fun h : Hyp => h.scores.overall == q)
      (pyStop (List.insertionSort (descBy (fun h : Hyp => h.scores.overall)) scored).length k)
      (List.insertionSort (descBy (fun h : Hyp => h.scores.overall)) scored)
    refine ⟨n, ?_⟩
    rw [rankHypotheses, pyTruncate, hn,
      insertionSort_filter (fun h : Hyp => h.scores.overall) q scored]

/-- C6, witness for the amended theorem at a single scored hypothesis and
top_k = 1. -/
theorem c6_ranker_witness :
    List.Pairwise (fun a b : Hyp => b.scores.overall ≤ a.scores.overall)
      (rankHypotheses [cHypB] 1) ∧
    (rankHypotheses [cHypB] 1).length = min (1 : ℤ).toNat [cHypB].length ∧
    (∀ h ∈ rankHypotheses [cHypB] 1, h ∈ [cHypB]) ∧
    (∀ q : ℚ, ∃ n, (rankHypotheses [cHypB] 1).filter (fun h => h.scores.overall == q) =
      ([cHypB].filter (fun h => h.scores.overall == q)).take n) :=
  c6_ranker_amended [cHypB] 1 (by norm_num)

/-! ## Basic facts about the path-set operations -/

lemma insertPath_mem (ps : List APath) (p q : APath) :
    q ∈ insertPath ps p ↔ q ∈ ps ∨ q = p := by
  unfold insertPath
  split_ifs with h
  · rw [List.elem_iff] at h
    constructor
    · exact Or.inl
    · rintro (hq | rfl)
      · exact hq
      · exact h
  · simp

lemma insertPath_nodup (ps : List APath) (p : APath) (h : ps.Nodup) :
    (insertPath ps p).Nodup := by
  unfold insertPath
  split_ifs with hc
  · exact h
  · rw [List.elem_iff] at hc
    simp [List.nodup_append, h, hc]

lemma insertPath_length_le (ps : List APath) (p : APath) :
    (insertPath ps p).length ≤ ps.length + 1 := by
  unfold insertPath
  split_ifs <;> simp

lemma insertPath_length_ge (ps : List APath) (p : APath) :
    ps.length ≤ (insertPath ps p).length := by
  unfold insertPath
  split_ifs <;> simp

/-- Generic membership characterization of a fold that only inserts
paths. -/
lemma mem_foldl_of_step {β : Type} (step : List APath → β → List APath)
    (R : β → APath → Prop)
    (hstep : ∀ acc x p, p ∈ step acc x ↔ p ∈ acc ∨ R x p) :
    ∀ (l : List β) (acc : List APath) (p : APath),
      p ∈ l.foldl step acc ↔ p ∈ acc ∨ ∃ x ∈ l, R x p := by
  intro l
  induction l with
  | nil => simp
  | cons x l ih =>
    intro acc p
    rw [List.foldl_cons, ih, hstep]
    constructor
    · rintro ((h | h) | ⟨y, hy, h⟩)
      · exact Or.inl h
      · exact Or.inr ⟨x, by simp, h⟩
      · exact Or.inr ⟨y, by simp [hy], h⟩
    · rintro (h | ⟨y, hy, h⟩)
      · exact Or.inl (Or.inl h)
      · rcases List.mem_cons.mp hy with rfl | hy
        · exact Or.inl (Or.inr h)
        · exact Or.inr ⟨y, hy, h⟩

lemma foldl_insertPath_mem (l : List APath) (acc : List APath) (q : APath) :
    q ∈ l.foldl insertPath acc ↔ q ∈ acc ∨ q ∈ l := by
  rw [mem_foldl_of_step insertPath (fun x p => p = x) (fun acc x p => insertPath_mem acc x p)]
  constructor
  · rintro (h | ⟨x, hx, rfl⟩)
    · exact Or.inl h
    · exact Or.inr hx
  · rintro (h | h)
    · exact Or.inl h
    · exact Or.inr ⟨q, h, rfl⟩

lemma foldl_insertPath_nodup (l : List APath) (acc : List APath) (h : acc.Nodup) :
    (l.foldl insertPath acc).Nodup := by
  induction l generalizing acc with
  | nil => exact h
  | cons x l ih => exact ih _ (insertPath_nodup _ _ h)

lemma foldl_insertPath_length_le (l : List APath) (acc : List APath) :
    (l.foldl insertPath acc).length ≤ acc.length + l.length := by
  induction l generalizing acc with
  | nil => simp
  | cons x l ih =>
    refine le_trans (ih (insertPath acc x)) ?_
    have := insertPath_length_le acc x
    simp only [List.length_cons]
    omega

lemma foldl_insertPath_length_ge (l : List APath) (acc : List APath) :
    acc.length ≤ (l.foldl insertPath acc).length := by
  induction l generalizing acc with
  | nil => simp
  | cons x l ih => exact le_trans (insertPath_length_ge acc x) (ih (insertPath acc x))

/-- Membership in the historical-truncation phase. -/
lemma histPhase_mem (seeds : List Str) (md : ℤ) (p : APath) :
    p ∈ histPhase seeds md ↔
      ∃ seq ∈ HISTORICAL_SEQUENCES, ∃ s ∈ seeds, s ∈ seq ∧
        p = pySliceFrom seq (seq.findIdx (· == s)) ((seq.findIdx (· == s) : ℤ) + md) := by
  unfold histPhase
  rw [mem_foldl_of_step _
    (fun seq p => ∃ s ∈ seeds, s ∈ seq ∧
      p = pySliceFrom seq (seq.findIdx (· == s)) ((seq.findIdx (· == s) : ℤ) + md))
    (fun acc seq p => ?_)]
  · simp
  · rw [mem_foldl_of_step _
      (fun s q => s ∈ seq ∧
        q = pySliceFrom seq (seq.findIdx (· == s)) ((seq.findIdx (· == s) : ℤ) + md))
      (fun acc s q => ?_)]
    split_ifs with hc
    · rw [insertPath_mem]
      rw [List.elem_iff] at hc
      constructor
      · rintro (h | rfl)
        · exact Or.inl h
        · exact Or.inr ⟨hc, rfl⟩
      · rintro (h | ⟨_, rfl⟩)
        · exact Or.inl h
        · exact Or.inr rfl
    · rw [List.elem_iff] at hc
      constructor
      · exact Or.inl
      · rintro (h | ⟨h, _⟩)
        · exact h
        · exact absurd h hc

lemma pySliceFrom_length (l : List α) (a : ℕ) (b : ℤ) :
    (pySliceFrom l a b).length = min (pyStop l.length b) l.length - a := by
  simp [pySliceFrom]

lemma pySliceFrom_sublist (l : List α) (a : ℕ) (b : ℤ) :
    List.Sublist (pySliceFrom l a b) l :=
  List.Sublist.trans (List.drop_sublist _ _) (List.take_sublist _ _)

/-- Length of a historical truncation: at most max_depth (for
max_depth ≥ 0) and at least 1 when the start index is in range and
max_depth ≥ 1. -/
lemma pySliceFrom_hist_length (l : List α) (a : ℕ) (md : ℤ) (hmd : 0 ≤ md) :
    ((pySliceFrom l a ((a : ℤ) + md)).length : ℤ) ≤ md ∧
    (1 ≤ md → a < l.length → 1 ≤ (pySliceFrom l a ((a : ℤ) + md)).length) := by
  rw [pySliceFrom_length, pyStop, if_pos (by omega : (0 : ℤ) ≤ (a : ℤ) + md)]
  omega

lemma pyTruncate_length_le_of_nonneg (l : List α) (k : ℤ) (hk : 0 ≤ k) :
    (pyTruncate l k).length ≤ k.toNat := by
  rw [pyTruncate, List.length_take, pyStop, if_pos hk]
  omega

lemma pyTruncate_sublist (l : List α) (k : ℤ) : List.Sublist (pyTruncate l k) l :=
  List.take_sublist _ _

/-- The paths accumulated by the BFS loop satisfy any property Q that
holds of all frontier paths and all already-accumulated paths and is
preserved by the loop's cycle-free extension step. -/
lemma bfsRun_inv (sigma : List Str → List Str) (kb : KB) (md nc gc : ℤ)
    (Q : APath → Prop)
    (hext : ∀ p n, Q p → (p.length : ℤ) < md → n ∉ p →
      n ∈ pyTruncate (sigma (canonicalNeighbors kb (pyLast p))) nc → Q (p ++ [n])) :
    ∀ (fuel : ℕ) (st : BfsSt), (∀ p ∈ st.frontier, Q p) → (∀ p ∈ st.paths, Q p) →
      (∀ p ∈ (bfsRun sigma kb md nc gc fuel st).paths, Q p) ∧
      (∀ p ∈ (bfsRun sigma kb md nc gc fuel st).frontier, Q p) := by
  intro fuel
  induction fuel with
  | zero => exact fun st hf hp => ⟨hp, hf⟩
  | succ fuel ih =>
    intro st hf hp
    rw [bfsRun]
    rcases hfr : st.frontier with _ | ⟨p, rest⟩
    · exact ⟨hp, by simp [hfr] at hf ⊢⟩
    · have hQp : Q p := hf p (by rw [hfr]; simp)
      have hQrest : ∀ q ∈ rest, Q q := fun q hq => hf q (by rw [hfr]; simp [hq])
      dsimp only
      split_ifs with hgc hmd
      · exact ⟨hp, by simp⟩
      · refine ih { frontier := rest, paths := insertPath st.paths p } hQrest ?_
        intro q hq
        rcases (insertPath_mem st.paths p q).mp hq with h | rfl
        · exact hp q h
        · exact hQp
      · refine ih _ ?_ ?_
        · intro q hq
          rcases List.mem_append.mp hq with h | h
          · exact hQrest q h
          · obtain ⟨n, hn, rfl⟩ := List.mem_map.mp h
            have hmem := List.mem_filter.mp hn
            have hnp : n ∉ p := by simpa using hmem.2
            exact hext p n hQp (by omega) hnp hmem.1
        · intro q hq
          rcases (foldl_insertPath_mem _ _ _).mp hq with h | h
          · exact hp q h
          · obtain ⟨n, hn, rfl⟩ := List.mem_map.mp h
            have hmem := List.mem_filter.mp hn
            have hnp : n ∉ p := by simpa using hmem.2
            exact hext p n hQp (by omega) hnp hmem.1

lemma HS_nodup : ∀ seq ∈ HISTORICAL_SEQUENCES, seq.Nodup := by decide

/-- C2.  For maxDepth ≥ 1, every path returned by expand_paths — under any
enumeration order sigma of the neighbor sets — is non-empty, repeats no
technique identifier, and has length at most maxDepth. -/
theorem c2_path_invariants (sigma : List Str → List Str) (seeds : List Str) (kb : KB)
    (md nc gc : ℤ) (hmd : 1 ≤ md) :
    ∀ p ∈ expand_paths sigma seeds kb md nc gc,
      p ≠ [] ∧ p.Nodup ∧ (p.length : ℤ) ≤ md := by
  have hhist : ∀ p ∈ histPhase seeds md,
      p ≠ [] ∧ p.Nodup ∧ (p.length : ℤ) ≤ md := by
    intro p hp
    obtain ⟨seq, hseq, s, _, hsin, rfl⟩ := (histPhase_mem seeds md p).mp hp
    have hidx : seq.findIdx (· == s) < seq.length :=
      List.findIdx_lt_length_of_exists ⟨s, hsin, by simp⟩
    obtain ⟨hle, hge⟩ := pySliceFrom_hist_length seq (seq.findIdx (· == s)) md (by omega)
    refine ⟨?_, (HS_nodup seq hseq).sublist (pySliceFrom_sublist _ _ _), hle⟩
    have h1 := hge hmd hidx
    intro hnil
    rw [hnil] at h1
    simp at h1
  have hext : ∀ p n, (p ≠ [] ∧ p.Nodup ∧ (p.length : ℤ) ≤ md) →
      (p.length : ℤ) < md → n ∉ p →
      n ∈ pyTruncate (sigma (canonicalNeighbors kb (pyLast p))) nc →
      ((p ++ [n]) ≠ [] ∧ (p ++ [n]).Nodup ∧ ((p ++ [n]).length : ℤ) ≤ md) := by
    rintro p n ⟨hne, hnd, hlen⟩ hlt hnp _
    refine ⟨by simp, ?_, ?_⟩
    · rw [List.nodup_append]
      refine ⟨hnd, List.nodup_singleton n, ?_⟩
      intro a ha hmem
      rcases List.mem_singleton.mp hmem with rfl
      exact hnp ha
    · rw [List.length_append, List.length_singleton]
      push_cast
      omega
  have hfold : ∀ (ss : List Str) (acc : List APath),
      (∀ p ∈ acc, p ≠ [] ∧ p.Nodup ∧ (p.length : ℤ) ≤ md) →
      ∀ p ∈ ss.foldl (fun pa seed =>
          (bfsRun sigma kb md nc gc (defaultFuel kb seeds)
            { frontier := [[seed]], paths := pa }).paths) acc,
        p ≠ [] ∧ p.Nodup ∧ (p.length : ℤ) ≤ md := by
    intro ss
    induction ss with
    | nil => intro acc hacc; simpa using hacc
    | cons s ss ih =>
      intro acc hacc
      rw [List.foldl_cons]
      refine ih _ ?_
      have hinit : ∀ p ∈ [[s]], p ≠ [] ∧ p.Nodup ∧ (p.length : ℤ) ≤ md := by
        intro p hp
        rcases List.mem_singleton.mp hp with rfl
        exact ⟨by simp, List.nodup_singleton s, by simp; omega⟩
      exact (bfsRun_inv sigma kb md nc gc _ hext _ _ hinit hacc).1
  intro p hp
  simp only [expand_paths, expandPathsFuel] at hp
  split at hp
  · obtain ⟨t, _, rfl⟩ := List.mem_map.mp hp
    exact ⟨by simp, List.nodup_singleton t, by simp; omega⟩
  · exact hfold seeds (histPhase seeds md) hhist p hp

/-- C2, witness: the invariants hold of the concrete run with one seed,
empty knowledge base, maxDepth 4. -/
theorem c2_path_invariants_witness :
    ["T1059".toList, "T1041".toList] ≠ ([] : APath) ∧
    (["T1059".toList, "T1041".toList] : APath).Nodup ∧
    ((["T1059".toList, "T1041".toList] : APath).length : ℤ) ≤ 4 :=
  c2_path_invariants id ["T1059".toList] [] 4 10 500 (by norm_num)
    ["T1059".toList, "T1041".toList] (by decide)

lemma foldl_step_length_le_c {β : Type} (c : ℕ) (step : List APath → β → List APath)
    (hstep : ∀ acc x, (step acc x).length ≤ acc.length + c) :
    ∀ (l : List β) (acc : List APath), (l.foldl step acc).length ≤ acc.length + c * l.length := by
  intro l
  induction l with
  | nil => simp
  | cons x l ih =>
    intro acc
    rw [List.foldl_cons]
    refine le_trans (ih (step acc x)) ?_
    have := hstep acc x
    simp only [List.length_cons]
    calc (step acc x).length + c * l.length ≤ acc.length + c + c * l.length := by omega
    _ = acc.length + c * (l.length + 1) := by ring

lemma foldl_preserve_nodup {β : Type} (step : List APath → β → List APath)
    (hstep : ∀ acc x, acc.Nodup → (step acc x).Nodup) :
    ∀ (l : List β) (acc : List APath), acc.Nodup → (l.foldl step acc).Nodup := by
  intro l
  induction l with
  | nil => exact fun acc h => h
  | cons x l ih => exact fun acc h => ih _ (hstep acc x h)

lemma histPhase_length_le (seeds : List Str) (md : ℤ) :
    (histPhase seeds md).length ≤ 3 * seeds.length := by
  unfold histPhase
  have h := foldl_step_length_le_c seeds.length
    (fun acc seq => seeds.foldl
      (fun acc s =>
        if seq.contains s then
          insertPath acc (pySliceFrom seq (seq.findIdx (· == s)) ((seq.findIdx (· == s) : ℤ) + md))
        else acc) acc)
    (fun acc seq => by
      dsimp only
      have := foldl_step_length_le_c 1
        (fun acc s =>
          if seq.contains s then
            insertPath acc (pySliceFrom seq (seq.findIdx (· == s)) ((seq.findIdx (· == s) : ℤ) + md))
          else acc)
        (fun acc s => by
          dsimp only
          split_ifs
          · exact insertPath_length_le _ _
          · omega)
        seeds acc
      omega)
    HISTORICAL_SEQUENCES []
  have hlen : HISTORICAL_SEQUENCES.length = 3 := rfl
  rw [hlen] at h
  simp only [List.length_nil] at h
  omega

lemma histPhase_nodup (seeds : List Str) (md : ℤ) : (histPhase seeds md).Nodup := by
  unfold histPhase
  refine foldl_preserve_nodup _ ?_ _ _ List.nodup_nil
  intro acc seq hacc
  refine foldl_preserve_nodup _ ?_ _ _ hacc
  intro acc' s hacc'
  split_ifs
  · exact insertPath_nodup _ _ hacc'
  · exact hacc'

lemma bfsRun_nodup (sigma : List Str → List Str) (kb : KB) (md nc gc : ℤ) :
    ∀ (fuel : ℕ) (st : BfsSt), st.paths.Nodup →
      (bfsRun sigma kb md nc gc fuel st).paths.Nodup := by
  intro fuel
  induction fuel with
  | zero => exact fun st h => h
  | succ fuel ih =>
    intro st h
    rw [bfsRun]
    rcases hfr : st.frontier with _ | ⟨p, rest⟩
    · exact h
    · dsimp only
      split_ifs with hgc hmd
      · exact h
      · exact ih _ (insertPath_nodup _ _ h)
      · exact ih _ (foldl_insertPath_nodup _ _ h)

lemma bfsRun_length_le (sigma : List Str → List Str) (kb : KB) (md nc gc : ℤ)
    (hnc : 0 ≤ nc) :
    ∀ (fuel : ℕ) (st : BfsSt),
      (bfsRun sigma kb md nc gc fuel st).paths.length ≤
        max st.paths.length ((gc - 1).toNat + max 1 nc.toNat) := by
  intro fuel
  induction fuel with
  | zero => exact fun st => le_max_left _ _
  | succ fuel ih =>
    intro st
    rw [bfsRun]
    rcases hfr : st.frontier with _ | ⟨p, rest⟩
    · exact le_max_left _ _
    · dsimp only
      split_ifs with hgc hmd
      · exact le_max_left _ _
      · refine le_trans (ih _) ?_
        have h1 := insertPath_length_le st.paths p
        have h3 : (insertPath st.paths p).length ≤ (gc - 1).toNat + max 1 nc.toNat := by
          omega
        exact le_trans (max_le h3 le_rfl) (le_max_right _ _)
      · refine le_trans (ih _) ?_
        have hns : (pyTruncate (sigma (canonicalNeighbors kb (pyLast p))) nc).length ≤
            nc.toNat := pyTruncate_length_le_of_nonneg _ _ hnc
        have hch : ((pyTruncate (sigma (canonicalNeighbors kb (pyLast p))) nc).filter
            (fun n => ! p.contains n)).length ≤ nc.toNat :=
          le_trans (List.length_filter_le _ _) hns
        have hfold := foldl_insertPath_length_le
          (((pyTruncate (sigma (canonicalNeighbors kb (pyLast p))) nc).filter
            (fun n => ! p.contains n)).map (fun n => p ++ [n])) st.paths
        rw [List.length_map] at hfold
        have h3 : (List.foldl insertPath st.paths
            (((pyTruncate (sigma (canonicalNeighbors kb (pyLast p))) nc).filter
              (fun n => ! p.contains n)).map (fun n => p ++ [n]))).length ≤
            (gc - 1).toNat + max 1 nc.toNat := by
          omega
        exact le_trans (max_le h3 le_rfl) (le_max_right _ _)

/-- C1, counterexample.  With globalPathCap = 0 the historical-truncation
phase still inserts its truncations before the cap is ever consulted:
seeding with T1059 yields 2 distinct paths, exceeding the cap 0. -/
theorem c1_counterexample :
    (expand_paths id ["T1059".toList] [] 4 10 0).length = 2 ∧
    (expand_paths id ["T1059".toList] [] 4 10 0).Nodup := by
  constructor <;> decide

/-- C1, amended.  The historical phase and the fallback ignore the global
cap, and the BFS checks the cap only before a pop (so one iteration can
overshoot by up to neighborCap paths): for neighborCap ≥ 0 the number of
distinct returned paths is bounded by
max(max(3·|seeds|, (globalPathCap−1) + max(1, neighborCap)), |seeds|)
rather than by globalPathCap; the returned list is duplicate-free. -/
theorem c1_cap_amended (sigma : List Str → List Str) (seeds : List Str) (kb : KB)
    (md nc gc : ℤ) (hnc : 0 ≤ nc) :
    (expand_paths sigma seeds kb md nc gc).length ≤
      max (max (3 * seeds.length) ((gc - 1).toNat + max 1 nc.toNat)) seeds.length ∧
    (expand_paths sigma seeds kb md nc gc).Nodup := by
  have hfoldlen : ∀ (ss : List Str) (acc : List APath),
      acc.length ≤ max (3 * seeds.length) ((gc - 1).toNat + max 1 nc.toNat) →
      (ss.foldl (fun pa seed =>
          (bfsRun sigma kb md nc gc (defaultFuel kb seeds)
            { frontier := [[seed]], paths := pa }).paths) acc).length ≤
        max (3 * seeds.length) ((gc - 1).toNat + max 1 nc.toNat) := by
    intro ss
    induction ss with
    | nil => intro acc h; simpa using h
    | cons s ss ih =>
      intro acc h
      rw [List.foldl_cons]
      refine ih _ ?_
      refine le_trans (bfsRun_length_le sigma kb md nc gc hnc (defaultFuel kb seeds)
        { frontier := [[s]], paths := acc }) ?_
      exact max_le h (le_max_right _ _)
  constructor
  · simp only [expand_paths, expandPathsFuel]
    split
    · rw [List.length_map]
      exact le_trans (List.Sublist.length_le (List.dedup_sublist seeds)) (le_max_right _ _)
    · refine le_trans (hfoldlen seeds (histPhase seeds md) ?_) (le_max_left _ _)
      exact le_trans (histPhase_length_le seeds md) (le_max_left _ _)
  · simp only [expand_paths, expandPathsFuel]
    split
    · refine List.Nodup.map ?_ (List.nodup_dedup seeds)
      intro a b hab
      simpa using hab
    · exact foldl_preserve_nodup _ (fun acc x h => bfsRun_nodup sigma kb md nc gc _ _ h)
        seeds _ (histPhase_nodup seeds md)

/-- C1, witness for the amended bound at a concrete call. -/
theorem c1_cap_witness :
    (expand_paths id ["T1059".toList] [] 4 10 500).length ≤
      max (max (3 * (["T1059".toList] : List Str).length)
        (((500 : ℤ) - 1).toNat + max 1 (10 : ℤ).toNat)) (["T1059".toList] : List Str).length ∧
    (expand_paths id ["T1059".toList] [] 4 10 500).Nodup :=
  c1_cap_amended id ["T1059".toList] [] 4 10 500 (by norm_num)

lemma bfsRun_nil (sigma : List Str → List Str) (kb : KB) (md nc gc : ℤ)
    (fuel : ℕ) (pa : List APath) :
    bfsRun sigma kb md nc gc fuel { frontier := [], paths := pa } =
      { frontier := [], paths := pa } := by
  cases fuel <;> rfl

lemma defaultFuel_ge_two (kb : KB) (seeds : List Str) : 2 ≤ defaultFuel kb seeds := by
  unfold defaultFuel
  have : 0 < ((alphabet kb seeds).length + 2) ^ (alphabet kb seeds).length :=
    Nat.pos_pow_of_pos _ (by omega)
  omega

/-- With maxDepth ≤ 1, the while loop on a single seed just records the
singleton path (provided the cap has not been reached). -/
lemma bfsRun_singleton (sigma : List Str → List Str) (kb : KB) (md nc gc : ℤ)
    (s : Str) (pa : List APath) (fuel : ℕ) (h1 : md ≤ 1)
    (hgc : ¬ gc ≤ (pa.length : ℤ)) (hfuel : 2 ≤ fuel) :
    bfsRun sigma kb md nc gc fuel { frontier := [[s]], paths := pa } =
      { frontier := [], paths := insertPath pa [s] } := by
  obtain ⟨f, rfl⟩ : ∃ f, fuel = f + 1 := ⟨fuel - 1, by omega⟩
  rw [bfsRun]
  dsimp only
  rw [if_neg hgc, if_pos (by simpa using h1)]
  exact bfsRun_nil sigma kb md nc gc f _

lemma singIns_mem (ss : List Str) (pa : List APath) (q : APath) :
    q ∈ ss.foldl (fun pa s => insertPath pa [s]) pa ↔ q ∈ pa ∨ ∃ s ∈ ss, q = [s] :=
  mem_foldl_of_step (fun pa s => insertPath pa [s]) (fun s q => q = [s])
    (fun acc x p => insertPath_mem acc [x] p) ss pa q

/-- With maxDepth ≤ 1 and enough cap headroom, the per-seed BFS loops
reduce to inserting one singleton path per seed. -/
lemma seedsFold_tiny (sigma : List Str → List Str) (kb : KB) (md nc gc : ℤ)
    (fuel : ℕ) (h1 : md ≤ 1) (hfuel : 2 ≤ fuel)
    (allowed : List APath) (hcap : (allowed.length : ℤ) < gc) :
    ∀ (ss : List Str) (pa : List APath), pa.Nodup → (∀ p ∈ pa, p ∈ allowed) →
      (∀ s ∈ ss, [s] ∈ allowed) →
      ss.foldl (fun pa seed =>
        (bfsRun sigma kb md nc gc fuel { frontier := [[seed]], paths := pa }).paths) pa =
      ss.foldl (fun pa s => insertPath pa [s]) pa := by
  intro ss
  induction ss with
  | nil => intros; rfl
  | cons s ss ih =>
    intro pa hnd hsub hss
    rw [List.foldl_cons, List.foldl_cons]
    have hlen : (pa.length : ℤ) < gc := by
      have h2 : pa.length ≤ allowed.length :=
        List.Subperm.length_le (List.Nodup.subperm hnd hsub)
      omega
    rw [bfsRun_singleton sigma kb md nc gc s pa fuel h1 (by omega) hfuel]
    refine ih _ (insertPath_nodup _ _ hnd) ?_ (fun t ht => hss t (by simp [ht]))
    intro p hp
    rcases (insertPath_mem _ _ _).mp hp with h | rfl
    · exact hsub p h
    · exact hss s (by simp)

lemma pySliceFrom_self (l : List α) (a : ℕ) : pySliceFrom l a ((a : ℕ) : ℤ) = [] := by
  apply List.eq_nil_of_length_eq_zero
  rw [pySliceFrom_length, pyStop, if_pos (by positivity)]
  omega

lemma pySliceFrom_one (l : List α) (a : ℕ) (ha : a < l.length) :
    pySliceFrom l a ((a : ℤ) + 1) = [l.get ⟨a, ha⟩] := by
  have hstop : pyStop l.length ((a : ℤ) + 1) = a + 1 := by
    rw [pyStop, if_pos (by positivity)]
    omega
  rw [pySliceFrom, hstop, List.drop_take, List.drop_eq_getElem_cons ha]
  have h1 : a + 1 - a = 0 + 1 := by omega
  rw [h1, List.take_succ_cons, List.take_zero]
  simp

lemma histPhase_zero_mem (seeds : List Str) (p : APath) :
    p ∈ histPhase seeds 0 ↔
      (p = [] ∧ ∃ seq ∈ HISTORICAL_SEQUENCES, ∃ s ∈ seeds, s ∈ seq) := by
  rw [histPhase_mem]
  constructor
  · rintro ⟨seq, hseq, s, hs, hsin, rfl⟩
    refine ⟨?_, seq, hseq, s, hs, hsin⟩
    have := pySliceFrom_self seq (seq.findIdx (· == s))
    simpa using this
  · rintro ⟨rfl, seq, hseq, s, hs, hsin⟩
    refine ⟨seq, hseq, s, hs, hsin, ?_⟩
    have := pySliceFrom_self seq (seq.findIdx (· == s))
    simpa using this.symm

lemma histPhase_one_mem (seeds : List Str) (p : APath) :
    p ∈ histPhase seeds 1 ↔
      ∃ s ∈ seeds, (∃ seq ∈ HISTORICAL_SEQUENCES, s ∈ seq) ∧ p = [s] := by
  rw [histPhase_mem]
  constructor
  · rintro ⟨seq, hseq, s, hs, hsin, rfl⟩
    have hidx : seq.findIdx (· == s) < seq.length :=
      List.findIdx_lt_length_of_exists ⟨s, hsin, by simp⟩
    have hget : seq.get ⟨seq.findIdx (· == s), hidx⟩ = s := by
      have h3 := @List.findIdx_getElem _ (fun x => x == s) seq hidx
      simp only [beq_iff_eq] at h3
      simp [h3]
    refine ⟨s, hs, ⟨seq, hseq, hsin⟩, ?_⟩
    rw [pySliceFrom_one seq _ hidx, hget]
  · rintro ⟨s, hs, ⟨seq, hseq, hsin⟩, rfl⟩
    have hidx : seq.findIdx (· == s) < seq.length :=
      List.findIdx_lt_length_of_exists ⟨s, hsin, by simp⟩
    have hget : seq.get ⟨seq.findIdx (· == s), hidx⟩ = s := by
      have h3 := @List.findIdx_getElem _ (fun x => x == s) seq hidx
      simp only [beq_iff_eq] at h3
      simp [h3]
    refine ⟨seq, hseq, s, hs, hsin, ?_⟩
    rw [pySliceFrom_one seq _ hidx, hget]

lemma histPhase_nil (md : ℤ) : histPhase [] md = [] := by
  unfold histPhase
  induction HISTORICAL_SEQUENCES with
  | nil => rfl
  | cons seq rest ih => simp only [List.foldl_cons, List.foldl_nil]; exact ih

/-- C7, counterexample.  maxDepth = 0 is neither rejected nor equivalent
to maxDepth = 1: the historical phase truncates to seq[idx:idx+0] = [] and
records an empty path, which maxDepth = 1 never produces. -/
theorem c7_counterexample :
    [] ∈ expand_paths id ["T1059".toList] [] 0 10 500 ∧
    [] ∉ expand_paths id ["T1059".toList] [] 1 10 500 := by
  constructor <;> decide

/-- C7, amended.  A call with maxDepth = 0 is not rejected and is not
equivalent to maxDepth = 1: given cap headroom (globalPathCap ≥ number of
seeds + 2) it returns exactly the maxDepth = 1 paths plus one empty Path
whenever some seed occurs in a historical sequence.  (For negative
maxDepth the historical phase further engages Python's negative slice
indexing.) -/
theorem c7_depth_zero_amended (sigma : List Str → List Str) (seeds : List Str) (kb : KB)
    (nc gc : ℤ) (hgc : (seeds.length : ℤ) + 2 ≤ gc) :
    ∀ p, p ∈ expand_paths sigma seeds kb 0 nc gc ↔
      (p ∈ expand_paths sigma seeds kb 1 nc gc ∨
        (p = [] ∧ ∃ seq ∈ HISTORICAL_SEQUENCES, ∃ s ∈ seeds, s ∈ seq)) := by
  intro p
  by_cases hs : seeds = []
  · subst hs
    simp [expand_paths, expandPathsFuel, histPhase_nil]
  · have hfuel := defaultFuel_ge_two kb seeds
    have hdedup := List.Sublist.length_le (List.dedup_sublist seeds)
    have hsub0 : ∀ q ∈ histPhase seeds 0,
        q ∈ ([] :: seeds.dedup.map (fun t => [t]) : List APath) := by
      intro q hq
      rcases (histPhase_zero_mem seeds q).mp hq with ⟨rfl, _⟩
      simp
    have hcap0 : ((([] :: seeds.dedup.map (fun t => [t]) : List APath)).length : ℤ) < gc := by
      simp only [List.length_cons, List.length_map]
      omega
    have he0 := seedsFold_tiny sigma kb 0 nc gc (defaultFuel kb seeds) (by norm_num) hfuel
      ([] :: seeds.dedup.map (fun t => [t])) hcap0 seeds (histPhase seeds 0)
      (histPhase_nodup seeds 0) hsub0
      (fun t ht => by exact List.mem_cons_of_mem _ (List.mem_map.mpr
        ⟨t, List.mem_dedup.mpr ht, rfl⟩))
    have hsub1 : ∀ q ∈ histPhase seeds 1,
        q ∈ (seeds.dedup.map (fun t => [t]) : List APath) := by
      intro q hq
      obtain ⟨s, hs', _, rfl⟩ := (histPhase_one_mem seeds q).mp hq
      exact List.mem_map.mpr ⟨s, List.mem_dedup.mpr hs', rfl⟩
    have hcap1 : ((seeds.dedup.map (fun t => [t]) : List APath).length : ℤ) < gc := by
      rw [List.length_map]
      omega
    have he1 := seedsFold_tiny sigma kb 1 nc gc (defaultFuel kb seeds) le_rfl hfuel
      (seeds.dedup.map (fun t => [t])) hcap1 seeds (histPhase seeds 1)
      (histPhase_nodup seeds 1) hsub1
      (fun t ht => List.mem_map.mpr ⟨t, List.mem_dedup.mpr ht, rfl⟩)
    obtain ⟨s0, hs0⟩ := List.exists_mem_of_ne_nil seeds hs
    have hne0 : seeds.foldl (fun pa s => insertPath pa [s]) (histPhase seeds 0) ≠ [] := by
      intro hnil
      have hm : [s0] ∈ seeds.foldl (fun pa s => insertPath pa [s]) (histPhase seeds 0) :=
        (singIns_mem _ _ _).mpr (Or.inr ⟨s0, hs0, rfl⟩)
      rw [hnil] at hm
      exact absurd hm (List.not_mem_nil _)
    have hne1 : seeds.foldl (fun pa s => insertPath pa [s]) (histPhase seeds 1) ≠ [] := by
      intro hnil
      have hm : [s0] ∈ seeds.foldl (fun pa s => insertPath pa [s]) (histPhase seeds 1) :=
        (singIns_mem _ _ _).mpr (Or.inr ⟨s0, hs0, rfl⟩)
      rw [hnil] at hm
      exact absurd hm (List.not_mem_nil _)
    simp only [expand_paths, expandPathsFuel]
    rw [he0, he1, if_neg hne0, if_neg hne1]
    rw [singIns_mem, singIns_mem, histPhase_zero_mem, histPhase_one_mem]
    constructor
    · rintro (⟨rfl, hit⟩ | hsing)
      · exact Or.inr ⟨rfl, hit⟩
      · exact Or.inl (Or.inr hsing)
    · rintro ((⟨s, hs', _, rfl⟩ | hsing) | ⟨rfl, hit⟩)
      · exact Or.inr ⟨s, hs', rfl⟩
      · exact Or.inr hsing
      · exact Or.inl ⟨rfl, hit⟩

/-- C7, witness for the amended theorem at a concrete call. -/
theorem c7_depth_zero_witness :
    [] ∈ expand_paths id ["T1059".toList] [] 0 10 500 ↔
      ([] ∈ expand_paths id ["T1059".toList] [] 1 10 500 ∨
        (([] : APath) = [] ∧ ∃ seq ∈ HISTORICAL_SEQUENCES, ∃ s ∈ [("T1059".toList : Str)], s ∈ seq)) :=
  c7_depth_zero_amended id ["T1059".toList] [] 10 500 (by norm_num) []

/-- A knowledge base in which technique TA has more neighbors (TA, TB via
the shared tactic x) than a neighborCap of 1 allows, so the neighbor-set
truncation keeps a hash-order-dependent subset. -/
def kbC8 : KB :=
  [("TA".toList, { name := "a".toList, tactics := ["x".toList] }),
   ("TB".toList, { name := "b".toList, tactics := ["x".toList] })]

/-- C8.  expand_paths enumerates the neighbor set with Python's unspecified
(hash-randomized) set order before truncating to neighborCap, so two runs
with identical inputs can return different path sets: reversing the
enumeration (a legitimate order of the same set — first conjunct) makes
the path [TA, TB] appear, while the forward order does not produce it. -/
theorem c8_order_dependence :
    (∀ l : List Str, List.Perm (List.reverse l) l) ∧
    ["TA".toList, "TB".toList] ∈ expand_paths List.reverse ["TA".toList] kbC8 2 1 500 ∧
    ["TA".toList, "TB".toList] ∉ expand_paths id ["TA".toList] kbC8 2 1 500 :=
  ⟨fun l => List.reverse_perm l, by decide, by decide⟩

/-! ## Termination of the BFS loop (claim C9) -/

/-- A frontier path is well-formed: duplicate-free over the input
alphabet. -/
def goodPath (A : List Str) (p : APath) : Prop := p.Nodup ∧ ∀ x ∈ p, x ∈ A

/-- Termination potential of a frontier. -/
def potential (B : ℕ) (fr : List APath) : ℕ :=
  (fr.map (fun p => (B + 2) ^ (B + 1 - p.length))).sum

lemma potential_cons (B : ℕ) (p : APath) (fr : List APath) :
    potential B (p :: fr) = (B + 2) ^ (B + 1 - p.length) + potential B fr := by
  simp [potential]

lemma potential_append (B : ℕ) (fr1 fr2 : List APath) :
    potential B (fr1 ++ fr2) = potential B fr1 + potential B fr2 := by
  simp [potential]

lemma goodPath_length_le (A : List Str) (p : APath) (h : goodPath A p) :
    p.length ≤ A.length :=
  List.Subperm.length_le (h.1.subperm h.2)

lemma sum_map_fixed {α : Type} (l : List α) (c : ℕ) (f : α → ℕ) (hf : ∀ x ∈ l, f x = c) :
    (l.map f).sum = l.length * c := by
  induction l with
  | nil => simp
  | cons x l ih =>
    rw [List.map_cons, List.sum_cons, hf x (by simp), ih (fun y hy => hf y (by simp [hy]))]
    simp [List.length_cons]
    ring

lemma potential_children_lt (B : ℕ) (p : APath) (l : List Str)
    (hL : p.length ≤ B) (hcount : l.length ≤ B) :
    potential B (l.map (fun n => p ++ [n])) < (B + 2) ^ (B + 1 - p.length) := by
  have hconst : potential B (l.map (fun n => p ++ [n])) =
      l.length * (B + 2) ^ (B - p.length) := by
    unfold potential
    rw [List.map_map]
    refine sum_map_fixed l _ _ ?_
    intro x _
    simp only [Function.comp_apply, List.length_append, List.length_singleton]
    congr 1
    omega
  rw [hconst]
  have hXpos : 0 < (B + 2) ^ (B - p.length) := Nat.pos_pow_of_pos _ (by omega)
  have hexp : B + 1 - p.length = (B - p.length) + 1 := by omega
  rw [hexp, pow_succ]
  calc l.length * (B + 2) ^ (B - p.length)
      ≤ B * (B + 2) ^ (B - p.length) := Nat.mul_le_mul_right _ hcount
    _ < (B + 2) * (B + 2) ^ (B - p.length) := by
        exact Nat.mul_lt_mul_of_lt_of_le (by omega) le_rfl hXpos
    _ = (B + 2) ^ (B - p.length) * (B + 2) := by ring

lemma alphabet_nodup (kb : KB) (seeds : List Str) : (alphabet kb seeds).Nodup :=
  List.nodup_dedup _

lemma canonicalNeighbors_subset_alphabet (kb : KB) (seeds : List Str) (last : Str) :
    ∀ x ∈ canonicalNeighbors kb last, x ∈ alphabet kb seeds := by
  intro x hx
  rw [canonicalNeighbors, List.mem_dedup] at hx
  rw [alphabet, List.mem_dedup]
  rcases List.mem_append.mp hx with h | h
  · obtain ⟨tct, _, hx2⟩ := List.mem_flatMap.mp h
    rw [tacticMap] at hx2
    obtain ⟨e, he, rfl⟩ := List.mem_map.mp hx2
    exact List.mem_append_left _ (List.mem_append_left _
      (List.mem_map.mpr ⟨e, (List.mem_filter.mp he).1, rfl⟩))
  · rw [histNextOf] at h
    obtain ⟨seq, hseq, hx2⟩ := List.mem_flatMap.mp h
    obtain ⟨pr, hpr, hx3⟩ := List.mem_filterMap.mp hx2
    have hpr2 : pr.2 = x := by
      by_cases hc : pr.1 = last
      · rw [if_pos hc] at hx3
        exact Option.some.inj hx3
      · rw [if_neg hc] at hx3
        exact absurd hx3 (Option.noConfusion)
    have hpz := (List.of_mem_zip hpr).2
    exact List.mem_append_left _ (List.mem_append_right _
      (List.mem_flatMap.mpr ⟨seq, hseq, hpr2 ▸ hpz⟩))

lemma canonicalNeighbors_length_le (kb : KB) (seeds : List Str) (last : Str) :
    (canonicalNeighbors kb last).length ≤ (alphabet kb seeds).length :=
  List.Subperm.length_le ((List.nodup_dedup _).subperm
    (canonicalNeighbors_subset_alphabet kb seeds last))

/-- Any two sufficiently large fuels give the BFS loop the same result:
the loop reaches its exit before the potential runs out. -/
lemma bfsRun_fuel_stable (sigma : List Str → List Str)
    (hsigma : ∀ l : List Str, List.Perm (sigma l) l)
    (kb : KB) (seeds : List Str) (md nc gc : ℤ) :
    ∀ (n m : ℕ) (st : BfsSt),
      (∀ p ∈ st.frontier, goodPath (alphabet kb seeds) p) →
      potential (alphabet kb seeds).length st.frontier < n →
      potential (alphabet kb seeds).length st.frontier < m →
      bfsRun sigma kb md nc gc n st = bfsRun sigma kb md nc gc m st := by
  intro n
  induction n using Nat.strong_induction_on with
  | _ n ih =>
    intro m st hgood hn hm
    match n, m with
    | 0, _ => omega
    | _ + 1, 0 => omega
    | n' + 1, m' + 1 =>
      rw [bfsRun, bfsRun]
      rcases hfr : st.frontier with _ | ⟨p, rest⟩
      · rfl
      · dsimp only
        split_ifs with hgc hmd
        · rfl
        · have hrest : ∀ q ∈ rest, goodPath (alphabet kb seeds) q :=
            fun q hq => hgood q (by rw [hfr]; simp [hq])
          have hpot : potential (alphabet kb seeds).length st.frontier =
              ((alphabet kb seeds).length + 2) ^
                ((alphabet kb seeds).length + 1 - p.length) +
              potential (alphabet kb seeds).length rest := by
            rw [hfr, potential_cons]
          have hterm : 0 < ((alphabet kb seeds).length + 2) ^
              ((alphabet kb seeds).length + 1 - p.length) :=
            Nat.pos_pow_of_pos _ (by omega)
          refine ih n' (by omega) m' _ hrest ?_ ?_
          · show potential (alphabet kb seeds).length rest < n'
            omega
          · show potential (alphabet kb seeds).length rest < m'
            omega
        · have hp : goodPath (alphabet kb seeds) p := hgood p (by rw [hfr]; simp)
          have hrest : ∀ q ∈ rest, goodPath (alphabet kb seeds) q :=
            fun q hq => hgood q (by rw [hfr]; simp [hq])
          have hgoodch : ∀ q ∈ ((pyTruncate (sigma (canonicalNeighbors kb (pyLast p))) nc).filter
              (fun n => ! p.contains n)).map (fun n => p ++ [n]),
              goodPath (alphabet kb seeds) q := by
            intro q hq
            obtain ⟨x, hxf, rfl⟩ := List.mem_map.mp hq
            have hxmem := List.mem_filter.mp hxf
            have hxp : x ∉ p := by simpa using hxmem.2
            have hxA : x ∈ alphabet kb seeds := by
              have h1 : x ∈ sigma (canonicalNeighbors kb (pyLast p)) :=
                (pyTruncate_sublist _ _).mem hxmem.1
              have h2 : x ∈ canonicalNeighbors kb (pyLast p) :=
                ((hsigma _).mem_iff).mp h1
              exact canonicalNeighbors_subset_alphabet kb seeds _ x h2
            constructor
            · rw [List.nodup_append]
              refine ⟨hp.1, List.nodup_singleton x, ?_⟩
              intro a ha hmem
              rcases List.mem_singleton.mp hmem with rfl
              exact hxp ha
            · intro y hy
              rcases List.mem_append.mp hy with h | h
              · exact hp.2 y h
              · rcases List.mem_singleton.mp h with rfl
                exact hxA
          have hcount : (((pyTruncate (sigma (canonicalNeighbors kb (pyLast p))) nc).filter
              (fun n => ! p.contains n))).length ≤ (alphabet kb seeds).length := by
            refine le_trans (List.length_filter_le _ _) ?_
            refine le_trans (List.Sublist.length_le (pyTruncate_sublist _ _)) ?_
            rw [(hsigma _).length_eq]
            exact canonicalNeighbors_length_le kb seeds _
          have hplen : p.length ≤ (alphabet kb seeds).length :=
            goodPath_length_le _ p hp
          have hchpot := potential_children_lt (alphabet kb seeds).length p
            ((pyTruncate (sigma (canonicalNeighbors kb (pyLast p))) nc).filter
              (fun n => ! p.contains n)) hplen hcount
          have hpot : potential (alphabet kb seeds).length st.frontier =
              ((alphabet kb seeds).length + 2) ^
                ((alphabet kb seeds).length + 1 - p.length) +
              potential (alphabet kb seeds).length rest := by
            rw [hfr, potential_cons]
          have hpot2 : potential (alphabet kb seeds).length
              (rest ++ ((pyTruncate (sigma (canonicalNeighbors kb (pyLast p))) nc).filter
                (fun n => ! p.contains n)).map (fun n => p ++ [n])) =
              potential (alphabet kb seeds).length rest +
              potential (alphabet kb seeds).length
                (((pyTruncate (sigma (canonicalNeighbors kb (pyLast p))) nc).filter
                  (fun n => ! p.contains n)).map (fun n => p ++ [n])) :=
            potential_append _ _ _
          refine ih n' (by omega) m' _ ?_ ?_ ?_
          · intro q hq
            rcases List.mem_append.mp hq with h | h
            · exact hrest q h
            · exact hgoodch q h
          · show potential (alphabet kb seeds).length
              (rest ++ ((pyTruncate (sigma (canonicalNeighbors kb (pyLast p))) nc).filter
                (fun n => ! p.contains n)).map (fun n => p ++ [n])) < n'
            rw [hpot2]
            omega
          · show potential (alphabet kb seeds).length
              (rest ++ ((pyTruncate (sigma (canonicalNeighbors kb (pyLast p))) nc).filter
                (fun n => ! p.contains n)).map (fun n => p ++ [n])) < m'
            rw [hpot2]
            omega

/-- C9.  The path expander terminates on every input: for any legitimate
set-enumeration sigma (a permutation), any seed list, finite knowledge
base and any cap values — including degenerate ones such as
globalPathCap = 0 — the BFS loops exit before the default fuel runs out,
so granting any amount of extra fuel never changes the returned (finite)
list of paths. -/
theorem c9_termination (sigma : List Str → List Str)
    (hsigma : ∀ l : List Str, List.Perm (sigma l) l)
    (seeds : List Str) (kb : KB) (md nc gc : ℤ) (extra : ℕ) :
    expandPathsFuel (defaultFuel kb seeds + extra) sigma seeds kb md nc gc =
      expand_paths sigma seeds kb md nc gc := by
  have hmem : ∀ s ∈ seeds, s ∈ alphabet kb seeds := by
    intro s hsm
    rw [alphabet, List.mem_dedup]
    exact List.mem_append_right _ hsm
  rw [expand_paths]
  simp only [expandPathsFuel]
  have hfold : ∀ (ss : List Str), (∀ s ∈ ss, s ∈ alphabet kb seeds) → ∀ (pa : List APath),
      ss.foldl (fun pa seed =>
        (bfsRun sigma kb md nc gc (defaultFuel kb seeds + extra)
          { frontier := [[seed]], paths := pa }).paths) pa =
      ss.foldl (fun pa seed =>
        (bfsRun sigma kb md nc gc (defaultFuel kb seeds)
          { frontier := [[seed]], paths := pa }).paths) pa := by
    intro ss hss
    induction ss with
    | nil => intro pa; rfl
    | cons s ss ih =>
      intro pa
      rw [List.foldl_cons, List.foldl_cons]
      have hgood : ∀ p ∈ ({ frontier := [[s]], paths := pa } : BfsSt).frontier,
          goodPath (alphabet kb seeds) p := by
        intro p hp
        have hp2 : p = [s] := List.mem_singleton.mp hp
        subst hp2
        refine ⟨List.nodup_singleton s, ?_⟩
        intro y hy
        have hy2 : y = s := List.mem_singleton.mp hy
        subst hy2
        exact hss y (List.mem_cons_self y ss)
      have hpot : potential (alphabet kb seeds).length
          ({ frontier := [[s]], paths := pa } : BfsSt).frontier =
          ((alphabet kb seeds).length + 2) ^ (alphabet kb seeds).length := by
        show potential (alphabet kb seeds).length [[s]] = _
        rw [potential_cons]
        simp [potential]
      have heq := bfsRun_fuel_stable sigma hsigma kb seeds md nc gc
        (defaultFuel kb seeds + extra) (defaultFuel kb seeds)
        { frontier := [[s]], paths := pa } hgood
        (by rw [hpot]; unfold defaultFuel; omega)
        (by rw [hpot]; unfold defaultFuel; omega)
      rw [heq]
      exact ih (fun t ht => hss t (by simp [ht])) _
  rw [hfold seeds hmem (histPhase seeds md)]

/-- C9, witness: extra fuel does not change the result of a concrete
call with a degenerate cap. -/
theorem c9_termination_witness :
    expandPathsFuel (defaultFuel [] ["T1059".toList] + 7) id ["T1059".toList] [] 4 10 0 =
      expand_paths id ["T1059".toList] [] 4 10 0 :=
  c9_termination id (fun l => List.Perm.refl l) ["T1059".toList] [] 4 10 0 7

/-! ## The candidate matcher's score dictionary (claims C4, C10) -/

lemma getScore_nil (u : Str) : getScore [] u = 0 := rfl

lemma getScore_cons (k : Str) (v : ℤ) (m : List (Str × ℤ)) (u : Str) :
    getScore ((k, v) :: m) u = if k = u then v else getScore m u := by
  by_cases h : k = u
  · subst h
    simp [getScore, List.lookup]
  · have hbeq : (u == k) = false := by
      simp only [beq_eq_false_iff_ne, ne_eq]
      intro h2
      exact h h2.symm
    simp [getScore, List.lookup, hbeq, h]

lemma bump_getScore (m : List (Str × ℤ)) (t : Str) (d : ℤ) (u : Str) :
    getScore (bump m t d) u = getScore m u + (if u = t then d else 0) := by
  induction m with
  | nil =>
    by_cases h : u = t
    · subst h
      simp [bump, getScore_cons, getScore_nil]
    · rw [show bump [] t d = [(t, d)] from rfl, getScore_cons, getScore_nil,
        if_neg (fun h2 => h h2.symm), if_neg h]
      simp [getScore_nil]
  | cons e m ih =>
    obtain ⟨k, v⟩ := e
    by_cases hk : k = t
    · subst hk
      rw [bump, if_pos rfl, getScore_cons, getScore_cons]
      by_cases hu : k = u
      · subst hu
        rw [if_pos rfl, if_pos rfl, if_pos rfl]
      · rw [if_neg hu, if_neg hu, if_neg (fun h2 => hu h2.symm)]
        ring
    · rw [bump, if_neg hk, getScore_cons, getScore_cons]
      by_cases hu : k = u
      · subst hu
        rw [if_pos rfl, if_pos rfl, if_neg (fun h2 => hk (by rw [h2]))]
        ring
      · rw [if_neg hu, if_neg hu, ih]

lemma bump_keys (m : List (Str × ℤ)) (t : Str) (d : ℤ) :
    (bump m t d).map Prod.fst =
      if t ∈ m.map Prod.fst then m.map Prod.fst else m.map Prod.fst ++ [t] := by
  induction m with
  | nil => simp [bump]
  | cons e m ih =>
    obtain ⟨k, v⟩ := e
    by_cases hk : k = t
    · subst hk
      simp [bump]
    · rw [bump, if_neg hk]
      by_cases ht : t ∈ m.map Prod.fst
      · simp only [List.map_cons, ih, if_pos ht]
        rw [if_pos (by simp [ht])]
      · simp only [List.map_cons, ih, if_neg ht]
        rw [if_neg ?_]
        · simp
        · intro hmem
          rcases List.mem_cons.mp hmem with h | h
          · exact hk h.symm
          · exact ht h

lemma bump_keys_nodup (m : List (Str × ℤ)) (t : Str) (d : ℤ)
    (h : (m.map Prod.fst).Nodup) : ((bump m t d).map Prod.fst).Nodup := by
  rw [bump_keys]
  split_ifs with ht
  · exact h
  · simp [List.nodup_append, h, ht]

lemma bump_values_pos (m : List (Str × ℤ)) (t : Str) (d : ℤ) (hd : 0 < d)
    (h : ∀ e ∈ m, 0 < e.2) : ∀ e ∈ bump m t d, 0 < e.2 := by
  induction m with
  | nil =>
    intro e he
    rcases List.mem_singleton.mp he with rfl
    exact hd
  | cons f m ih =>
    obtain ⟨k, v⟩ := f
    intro e he
    by_cases hk : k = t
    · subst hk
      rw [bump, if_pos rfl] at he
      rcases List.mem_cons.mp he with rfl | hm
      · have := h (k, v) (by simp)
        simp only at this ⊢
        omega
      · exact h e (by simp [hm])
    · rw [bump, if_neg hk] at he
      rcases List.mem_cons.mp he with rfl | hm
      · exact h (k, v) (by simp)
      · exact ih (fun e he => h e (by simp [he])) e hm

lemma bump_keys_subset (m : List (Str × ℤ)) (t : Str) (d : ℤ) (u : Str)
    (hu : u ∈ (bump m t d).map Prod.fst) : u ∈ m.map Prod.fst ∨ u = t := by
  rw [bump_keys] at hu
  split_ifs at hu with ht
  · exact Or.inl hu
  · rcases List.mem_append.mp hu with h | h
    · exact Or.inl h
    · exact Or.inr (List.mem_singleton.mp h)

lemma getScore_of_mem_nodup (m : List (Str × ℤ)) (h : (m.map Prod.fst).Nodup)
    (e : Str × ℤ) (he : e ∈ m) : getScore m e.1 = e.2 := by
  induction m with
  | nil => cases he
  | cons f m ih =>
    obtain ⟨k, v⟩ := f
    have h2 : k ∉ m.map Prod.fst ∧ (m.map Prod.fst).Nodup := by
      rw [List.map_cons, List.nodup_cons] at h
      exact h
    rcases List.mem_cons.mp he with rfl | hm
    · rw [getScore_cons, if_pos rfl]
    · rw [getScore_cons, if_neg ?_]
      · exact ih h2.2 hm
      · intro hke
        exact h2.1 (by rw [hke]; exact List.mem_map.mpr ⟨e, hm, rfl⟩)

lemma getScore_not_mem (m : List (Str × ℤ)) (u : Str)
    (h : u ∉ m.map Prod.fst) : getScore m u = 0 := by
  induction m with
  | nil => rfl
  | cons f m ih =>
    obtain ⟨k, v⟩ := f
    rw [List.map_cons] at h
    have h1 : k ≠ u := by
      intro hk
      subst hk
      exact h (List.mem_cons_self _ _)
    have h2 : u ∉ m.map Prod.fst := fun hm => h (List.mem_cons_of_mem _ hm)
    rw [getScore_cons, if_neg h1, ih h2]

lemma foldl_bump_getScore (l : List Str) (d : ℤ) :
    ∀ (m : List (Str × ℤ)) (u : Str),
      getScore (l.foldl (fun m tid => bump m tid d) m) u =
        getScore m u + d * (l.count u : ℤ) := by
  induction l with
  | nil => intro m u; simp
  | cons x l ih =>
    intro m u
    rw [List.foldl_cons, ih, bump_getScore]
    by_cases h : u = x
    · subst h
      rw [List.count_cons_self, if_pos rfl]
      push_cast
      ring
    · rw [List.count_cons_of_ne h, if_neg h]
      ring

lemma tokenStep_getScore (kb : KB) (tk : Str) (m : List (Str × ℤ)) (u : Str) :
    getScore (if keywordBucket kb tk ≠ [] then
        (keywordBucket kb tk).foldl (fun m tid => bump m tid 3) m else m) u =
      getScore m u + 3 * ((keywordBucket kb tk).count u : ℤ) := by
  split_ifs with h
  · exact foldl_bump_getScore _ 3 m u
  · rw [not_not] at h
    rw [h]
    simp

lemma tokenPhase_getScore (kb : KB) (toks : List Str) :
    ∀ (m : List (Str × ℤ)) (u : Str),
      getScore (tokenPhase kb toks m) u =
        getScore m u + 3 * (((toks.map (fun tk => (keywordBucket kb tk).count u)).sum : ℕ) : ℤ) := by
  induction toks with
  | nil => intro m u; simp [tokenPhase]
  | cons tk toks ih =>
    intro m u
    show getScore (tokenPhase kb toks (if keywordBucket kb tk ≠ [] then
        (keywordBucket kb tk).foldl (fun m tid => bump m tid 3) m else m)) u = _
    rw [ih, tokenStep_getScore, List.map_cons, List.sum_cons]
    push_cast
    ring

lemma foldl_bump_if_getScore (toks : List Str) (c : Str → Bool) (t : Str) (d : ℤ) :
    ∀ (m : List (Str × ℤ)) (u : Str),
      getScore (toks.foldl (fun m tk => if c tk then bump m t d else m) m) u =
        getScore m u + (if u = t then d * ((toks.countP c : ℕ) : ℤ) else 0) := by
  induction toks with
  | nil => intro m u; simp
  | cons tk toks ih =>
    intro m u
    rw [List.foldl_cons, List.countP_cons]
    by_cases hc : c tk
    · rw [if_pos hc, ih, bump_getScore, if_pos hc]
      by_cases hu : u = t
      · rw [if_pos hu, if_pos hu, if_pos hu]
        push_cast
        ring
      · rw [if_neg hu, if_neg hu, if_neg hu]
        ring
    · rw [if_neg hc, ih, if_neg hc]
      by_cases hu : u = t
      · rw [if_pos hu, if_pos hu]
        push_cast
        ring
      · rw [if_neg hu, if_neg hu]

/-- The claim's per-technique token contribution: 3 per event token whose
index bucket holds the technique (i.e. the token has length ≥ 3 and occurs
among the technique's name tokens). -/
def tokenScore (event : Str) (mt : Tech) : ℤ :=
  3 * (((tokenize event).countP
    (fun tk => decide (3 ≤ tk.length) && (tokenize mt.name).contains tk) : ℕ) : ℤ)

/-- The claim's per-technique name contribution: 2 per event token that is
a substring of the lowercase name, plus int(sim / 25) when the fuzzy
similarity of the lowercased event text and name exceeds 40. -/
def nameScore (simf : Str → Str → ℚ) (event : Str) (mt : Tech) : ℤ :=
  2 * (((tokenize event).countP (fun tk => strContains (lowerStr mt.name) tk) : ℕ) : ℤ) +
  (if 40 < simf (lowerStr event) (lowerStr mt.name) then
    ⌊simf (lowerStr event) (lowerStr mt.name) / 25⌋ else 0)

lemma namePhase_cons (simf : Str → Str → ℚ) (event : Str) (e : Str × Tech)
    (kb : KB) (m : List (Str × ℤ)) :
    namePhase simf event (e :: kb) m = namePhase simf event kb
      (if 40 < simf (lowerStr event) (lowerStr e.2.name) then
        bump ((tokenize event).foldl
          (fun m tk => if strContains (lowerStr e.2.name) tk then bump m e.1 2 else m) m)
          e.1 ⌊simf (lowerStr event) (lowerStr e.2.name) / 25⌋
      else (tokenize event).foldl
          (fun m tk => if strContains (lowerStr e.2.name) tk then bump m e.1 2 else m) m) := rfl

lemma nameStep_getScore (simf : Str → Str → ℚ) (event : Str) (e : Str × Tech)
    (m : List (Str × ℤ)) (u : Str) :
    getScore (if 40 < simf (lowerStr event) (lowerStr e.2.name) then
        bump ((tokenize event).foldl
          (fun m tk => if strContains (lowerStr e.2.name) tk then bump m e.1 2 else m) m)
          e.1 ⌊simf (lowerStr event) (lowerStr e.2.name) / 25⌋
      else (tokenize event).foldl
          (fun m tk => if strContains (lowerStr e.2.name) tk then bump m e.1 2 else m) m) u =
      getScore m u + (if u = e.1 then nameScore simf event e.2 else 0) := by
  unfold nameScore
  split_ifs with hsim hu hu
  · rw [bump_getScore, foldl_bump_if_getScore, if_pos hu, if_pos hu]
    ring
  · rw [bump_getScore, foldl_bump_if_getScore, if_neg hu, if_neg hu]
    ring
  · rw [foldl_bump_if_getScore, if_pos hu]
    ring
  · rw [foldl_bump_if_getScore, if_neg hu]

lemma namePhase_getScore_notmem (simf : Str → Str → ℚ) (event : Str) (kb : KB)
    (u : Str) (hu : ∀ e ∈ kb, e.1 ≠ u) :
    ∀ m, getScore (namePhase simf event kb m) u = getScore m u := by
  induction kb with
  | nil => intro m; rfl
  | cons e kb ih =>
    intro m
    rw [namePhase_cons, ih (fun f hf => hu f (List.mem_cons_of_mem _ hf)), nameStep_getScore]
    rw [if_neg (fun h => hu e (List.mem_cons_self _ _) h.symm)]
    ring

lemma namePhase_getScore (simf : Str → Str → ℚ) (event : Str) (kb : KB)
    (u : Str) (mu : Tech) :
    ∀ (hk : (kb.map Prod.fst).Nodup) (hu : (u, mu) ∈ kb) (m : List (Str × ℤ)),
      getScore (namePhase simf event kb m) u = getScore m u + nameScore simf event mu := by
  induction kb with
  | nil => intro _ hu _; cases hu
  | cons e kb ih =>
    intro hk hu m
    rw [List.map_cons, List.nodup_cons] at hk
    rcases List.mem_cons.mp hu with heq | hmem
    · have he1 : e.1 = u := by rw [← heq]
      have he2 : e.2 = mu := by rw [← heq]
      rw [namePhase_cons, namePhase_getScore_notmem simf event kb u ?_, nameStep_getScore]
      · rw [if_pos he1.symm, he2]
      · intro f hf hfu
        exact hk.1 (by rw [he1, ← hfu]; exact List.mem_map.mpr ⟨f, hf, rfl⟩)
    · rw [namePhase_cons, ih hk.2 hmem, nameStep_getScore]
      have hne : u ≠ e.1 := by
        intro h
        exact hk.1 (by rw [← h]; exact List.mem_map.mpr ⟨(u, mu), hmem, rfl⟩)
      rw [if_neg hne]
      ring

lemma mem_keys_unique (kb : KB) (hk : (kb.map Prod.fst).Nodup) (e f : Str × Tech)
    (he : e ∈ kb) (hf : f ∈ kb) (hfst : e.1 = f.1) : e = f := by
  induction kb with
  | nil => cases he
  | cons g kb ih =>
    rw [List.map_cons, List.nodup_cons] at hk
    rcases List.mem_cons.mp he with rfl | he2
    · rcases List.mem_cons.mp hf with rfl | hf2
      · rfl
      · exact absurd (by rw [hfst]; exact List.mem_map.mpr ⟨f, hf2, rfl⟩) hk.1
    · rcases List.mem_cons.mp hf with rfl | hf2
      · exact absurd (by rw [← hfst]; exact List.mem_map.mpr ⟨e, he2, rfl⟩) hk.1
      · exact ih hk.2 he2 hf2

lemma keywordBucket_nodup (kb : KB) (hk : (kb.map Prod.fst).Nodup) (tk : Str) :
    (keywordBucket kb tk).Nodup := by
  unfold keywordBucket
  split_ifs
  · exact hk.sublist ((List.filter_sublist _).map Prod.fst)
  · exact List.nodup_nil

lemma mem_keywordBucket (kb : KB) (hk : (kb.map Prod.fst).Nodup) (u : Str) (mu : Tech)
    (hu : (u, mu) ∈ kb) (tk : Str) :
    u ∈ keywordBucket kb tk ↔
      (3 ≤ tk.length ∧ (tokenize mu.name).contains tk = true) := by
  unfold keywordBucket
  split_ifs with hlen
  · constructor
    · intro h
      obtain ⟨e, he, rfl⟩ := List.mem_map.mp h
      have hef := List.mem_filter.mp he
      have heq : e = (e.1, mu) := mem_keys_unique kb hk e (e.1, mu) hef.1 hu rfl
      refine ⟨hlen, ?_⟩
      have h2 := hef.2
      rw [heq] at h2
      exact h2
    · rintro ⟨_, hcont⟩
      exact List.mem_map.mpr ⟨(u, mu), List.mem_filter.mpr ⟨hu, hcont⟩, rfl⟩
  · constructor
    · intro h
      exact absurd h (List.not_mem_nil u)
    · rintro ⟨h3, _⟩
      exact absurd h3 hlen

lemma count_eq_zero_not_mem (l : List Str) (u : Str) (hm : u ∉ l) : l.count u = 0 := by
  induction l with
  | nil => rfl
  | cons x l ih =>
    have hxu : ¬ ((x == u) = true) := by
      simp only [beq_iff_eq]
      intro h
      subst h
      exact hm (List.mem_cons_self _ _)
    rw [List.count_cons, ih (fun h => hm (List.mem_cons_of_mem _ h)), if_neg hxu]

lemma count_eq_one_nodup_mem (l : List Str) (hl : l.Nodup) (u : Str) (hm : u ∈ l) :
    l.count u = 1 := by
  induction l with
  | nil => cases hm
  | cons x l ih =>
    rw [List.nodup_cons] at hl
    rw [List.count_cons]
    rcases List.mem_cons.mp hm with rfl | h2
    · rw [count_eq_zero_not_mem l u hl.1, if_pos (by simp)]
    · have hxu : ¬ ((x == u) = true) := by
        simp only [beq_iff_eq]
        intro h
        subst h
        exact hl.1 h2
      rw [ih hl.2 h2, if_neg hxu]

lemma keywordBucket_count (kb : KB) (hk : (kb.map Prod.fst).Nodup) (u : Str) (mu : Tech)
    (hu : (u, mu) ∈ kb) (tk : Str) :
    (keywordBucket kb tk).count u =
      if (decide (3 ≤ tk.length) && (tokenize mu.name).contains tk) = true then 1 else 0 := by
  by_cases hmem : u ∈ keywordBucket kb tk
  · rw [count_eq_one_nodup_mem _ (keywordBucket_nodup kb hk tk) u hmem]
    have h2 := (mem_keywordBucket kb hk u mu hu tk).mp hmem
    rw [if_pos (by simp only [Bool.and_eq_true, decide_eq_true_eq]; exact ⟨h2.1, h2.2⟩)]
  · rw [count_eq_zero_not_mem _ u hmem, if_neg ?_]
    intro hcond
    simp only [Bool.and_eq_true, decide_eq_true_eq] at hcond
    exact hmem ((mem_keywordBucket kb hk u mu hu tk).mpr ⟨hcond.1, hcond.2⟩)

lemma sum_map_ite_one (l : List Str) (f : Str → ℕ) (p : Str → Bool)
    (hf : ∀ x ∈ l, f x = if p x = true then 1 else 0) :
    (l.map f).sum = l.countP p := by
  induction l with
  | nil => simp
  | cons x l ih =>
    rw [List.map_cons, List.sum_cons, List.countP_cons, hf x (by simp),
      ih (fun y hy => hf y (by simp [hy]))]
    split_ifs <;> omega

/-- The score dictionary assigns every technique of the knowledge base
exactly the claim's composite relevance score. -/
lemma scoreMap_getScore (simf : Str → Str → ℚ) (event : Str) (kb : KB)
    (hk : (kb.map Prod.fst).Nodup) (u : Str) (mu : Tech) (hu : (u, mu) ∈ kb) :
    getScore (scoreMap simf event kb) u = tokenScore event mu + nameScore simf event mu := by
  unfold scoreMap
  rw [namePhase_getScore simf event kb u mu hk hu, tokenPhase_getScore, getScore_nil]
  unfold tokenScore
  rw [sum_map_ite_one _ _ (fun tk => decide (3 ≤ tk.length) && (tokenize mu.name).contains tk)
    (fun tk _ => keywordBucket_count kb hk u mu hu tk)]
  ring

lemma foldl_bump_keys_nodup (l : List Str) (d : ℤ) :
    ∀ m, ((m : List (Str × ℤ)).map Prod.fst).Nodup →
      ((l.foldl (fun m t => bump m t d) m).map Prod.fst).Nodup := by
  induction l with
  | nil => exact fun m h => h
  | cons x l ih => exact fun m h => ih _ (bump_keys_nodup m x d h)

lemma tokenPhase_keys_nodup (kb : KB) (toks : List Str) :
    ∀ m, ((m : List (Str × ℤ)).map Prod.fst).Nodup →
      ((tokenPhase kb toks m).map Prod.fst).Nodup := by
  induction toks with
  | nil => exact fun m h => h
  | cons tk toks ih =>
    intro m h
    show ((tokenPhase kb toks _).map Prod.fst).Nodup
    refine ih _ ?_
    dsimp only
    split_ifs with hb
    · exact foldl_bump_keys_nodup _ 3 m h
    · exact h

lemma foldl_bump_if_keys_nodup (toks : List Str) (c : Str → Bool) (t : Str) (d : ℤ) :
    ∀ m, ((m : List (Str × ℤ)).map Prod.fst).Nodup →
      ((toks.foldl (fun m tk => if c tk then bump m t d else m) m).map Prod.fst).Nodup := by
  induction toks with
  | nil => exact fun m h => h
  | cons tk toks ih =>
    intro m h
    rw [List.foldl_cons]
    refine ih _ ?_
    split_ifs with hc
    · exact bump_keys_nodup m t d h
    · exact h

lemma namePhase_keys_nodup (simf : Str → Str → ℚ) (event : Str) (kb : KB) :
    ∀ m, ((m : List (Str × ℤ)).map Prod.fst).Nodup →
      ((namePhase simf event kb m).map Prod.fst).Nodup := by
  induction kb with
  | nil => exact fun m h => h
  | cons e kb ih =>
    intro m h
    rw [namePhase_cons]
    refine ih _ ?_
    split_ifs with hs
    · exact bump_keys_nodup _ _ _ (foldl_bump_if_keys_nodup _ _ _ 2 m h)
    · exact foldl_bump_if_keys_nodup _ _ _ 2 m h

lemma scoreMap_keys_nodup (simf : Str → Str → ℚ) (event : Str) (kb : KB) :
    ((scoreMap simf event kb).map Prod.fst).Nodup :=
  namePhase_keys_nodup simf event kb _
    (tokenPhase_keys_nodup kb (tokenize event) [] (by simp))

lemma floor_pos_of_gt40 (q : ℚ) (h : 40 < q) : 0 < ⌊q / 25⌋ := by
  have h1 : (1 : ℤ) ≤ ⌊q / 25⌋ := by
    rw [Int.le_floor]
    rw [le_div_iff₀ (by norm_num : (0 : ℚ) < 25)]
    push_cast
    linarith
  omega

lemma foldl_bump_pos (l : List Str) (d : ℤ) (hd : 0 < d) :
    ∀ m, (∀ e ∈ m, 0 < e.2) →
      ∀ e ∈ l.foldl (fun m t => bump m t d) m, 0 < e.2 := by
  induction l with
  | nil => exact fun m h => h
  | cons x l ih => exact fun m h => ih _ (bump_values_pos m x d hd h)

lemma tokenPhase_pos (kb : KB) (toks : List Str) :
    ∀ m, (∀ e ∈ m, 0 < e.2) → ∀ e ∈ tokenPhase kb toks m, 0 < e.2 := by
  induction toks with
  | nil => exact fun m h => h
  | cons tk toks ih =>
    intro m h
    show ∀ e ∈ tokenPhase kb toks _, 0 < e.2
    refine ih _ ?_
    dsimp only
    split_ifs with hb
    · exact foldl_bump_pos _ 3 (by norm_num) m h
    · exact h

lemma foldl_bump_if_pos (toks : List Str) (c : Str → Bool) (t : Str) (d : ℤ) (hd : 0 < d) :
    ∀ m, (∀ e ∈ m, 0 < e.2) →
      ∀ e ∈ toks.foldl (fun m tk => if c tk then bump m t d else m) m, 0 < e.2 := by
  induction toks with
  | nil => exact fun m h => h
  | cons tk toks ih =>
    intro m h
    rw [List.foldl_cons]
    refine ih _ ?_
    split_ifs with hc
    · exact bump_values_pos m t d hd h
    · exact h

lemma namePhase_pos (simf : Str → Str → ℚ) (event : Str) (kb : KB) :
    ∀ m, (∀ e ∈ m, 0 < e.2) → ∀ e ∈ namePhase simf event kb m, 0 < e.2 := by
  induction kb with
  | nil => exact fun m h => h
  | cons f kb ih =>
    intro m h
    rw [namePhase_cons]
    refine ih _ ?_
    split_ifs with hs
    · exact bump_values_pos _ _ _ (floor_pos_of_gt40 _ hs)
        (foldl_bump_if_pos _ _ _ 2 (by norm_num) m h)
    · exact foldl_bump_if_pos _ _ _ 2 (by norm_num) m h

lemma scoreMap_pos (simf : Str → Str → ℚ) (event : Str) (kb : KB) :
    ∀ e ∈ scoreMap simf event kb, 0 < e.2 :=
  namePhase_pos simf event kb _
    (tokenPhase_pos kb (tokenize event) [] (by simp))

/-- C10.  Every identifier returned by the candidate matcher carries a
strictly positive score in the matcher's score dictionary: the top-N slice
is never padded with techniques that matched no token, no substring, and
no fuzzy threshold. -/
theorem c10_positive_scores (simf : Str → Str → ℚ) (event : Str) (kb : KB) (topN : ℕ) :
    ∀ tid ∈ map_event_to_techniques_smart simf event kb topN,
      0 < getScore (scoreMap simf event kb) tid := by
  intro tid htid
  unfold map_event_to_techniques_smart at htid
  obtain ⟨e, he, rfl⟩ := List.mem_map.mp htid
  have he2 : e ∈ scoreMap simf event kb :=
    (List.perm_insertionSort _ _).subset (List.mem_of_mem_take he)
  rw [getScore_of_mem_nodup _ (scoreMap_keys_nodup simf event kb) e he2]
  exact scoreMap_pos simf event kb e he2

/-- C10, witness: with one PowerShell technique and the event text
"powershell", the matcher returns it and its score is positive. -/
theorem c10_positive_scores_witness :
    0 < getScore (scoreMap (fun _ _ => 0) "powershell".toList
      [("T1059.001".toList, { name := "PowerShell".toList, tactics := [] })])
      "T1059.001".toList :=
  c10_positive_scores (fun _ _ => 0) "powershell".toList
    [("T1059.001".toList, { name := "PowerShell".toList, tactics := [] })] 5
    "T1059.001".toList (by decide)

/-- C4.  For a knowledge base with unique identifiers (a Python dict) and
any pluggable similarity backend simf, the candidate matcher scores each
technique exactly as claimed — 3 per event token whose index bucket
contains the technique, plus 2 per event token occurring as a substring of
the technique's lowercase name, plus int(sim/25) when the whole-string
fuzzy similarity of the lowercased event text and name exceeds 40 — and
returns the up-to-topN highest-scoring techniques in descending score
order (ties fall to the unspecified dict enumeration); when no technique
scores above zero the result is empty. -/
theorem c4_matcher (simf : Str → Str → ℚ) (event : Str) (kb : KB) (topN : ℕ)
    (hk : (kb.map Prod.fst).Nodup) :
    (∀ tid mt, (tid, mt) ∈ kb →
      getScore (scoreMap simf event kb) tid = tokenScore event mt + nameScore simf event mt) ∧
    List.Pairwise (fun a b : Str =>
      getScore (scoreMap simf event kb) b ≤ getScore (scoreMap simf event kb) a)
      (map_event_to_techniques_smart simf event kb topN) ∧
    (map_event_to_techniques_smart simf event kb topN).length =
      min topN (scoreMap simf event kb).length ∧
    (∀ u, u ∈ (scoreMap simf event kb).map Prod.fst →
      u ∉ map_event_to_techniques_smart simf event kb topN →
      ∀ t ∈ map_event_to_techniques_smart simf event kb topN,
        getScore (scoreMap simf event kb) u ≤ getScore (scoreMap simf event kb) t) ∧
    ((∀ tid, getScore (scoreMap simf event kb) tid ≤ 0) →
      map_event_to_techniques_smart simf event kb topN = []) := by
  have hval : ∀ e ∈ scoreMap simf event kb, getScore (scoreMap simf event kb) e.1 = e.2 :=
    fun e he => getScore_of_mem_nodup _ (scoreMap_keys_nodup simf event kb) e he
  have hsorted := List.sorted_insertionSort (descBy (Prod.snd : Str × ℤ → ℤ))
    (scoreMap simf event kb)
  have hperm := List.perm_insertionSort (descBy (Prod.snd : Str × ℤ → ℤ))
    (scoreMap simf event kb)
  have htakemem : ∀ e, e ∈ (List.insertionSort (descBy (Prod.snd : Str × ℤ → ℤ))
      (scoreMap simf event kb)).take topN → e ∈ scoreMap simf event kb :=
    fun e he => hperm.subset (List.mem_of_mem_take he)
  refine ⟨fun tid mt hmem => scoreMap_getScore simf event kb hk tid mt hmem, ?_, ?_, ?_, ?_⟩
  · unfold map_event_to_techniques_smart
    rw [List.pairwise_map]
    have hpw : List.Pairwise (descBy (Prod.snd : Str × ℤ → ℤ))
        ((List.insertionSort (descBy (Prod.snd : Str × ℤ → ℤ)) (scoreMap simf event kb)).take
          topN) :=
      List.Pairwise.sublist (List.take_sublist _ _) hsorted
    refine List.Pairwise.imp_of_mem ?_ hpw
    intro a b ha hb hr
    rw [hval a (htakemem a ha), hval b (htakemem b hb)]
    exact hr
  · unfold map_event_to_techniques_smart
    rw [List.length_map, List.length_take, hperm.length_eq]
  · intro u hu hout t hat
    unfold map_event_to_techniques_smart at hout hat
    obtain ⟨e, he, he1⟩ := List.mem_map.mp hu
    have heS : e ∈ List.insertionSort (descBy (Prod.snd : Str × ℤ → ℤ))
        (scoreMap simf event kb) := hperm.symm.subset he
    have hdecomp := List.take_append_drop topN
      (List.insertionSort (descBy (Prod.snd : Str × ℤ → ℤ)) (scoreMap simf event kb))
    have hpw2 : List.Pairwise (descBy (Prod.snd : Str × ℤ → ℤ))
        ((List.insertionSort (descBy (Prod.snd : Str × ℤ → ℤ)) (scoreMap simf event kb)).take
            topN ++
          (List.insertionSort (descBy (Prod.snd : Str × ℤ → ℤ)) (scoreMap simf event kb)).drop
            topN) := by
      rw [hdecomp]
      exact hsorted
    have hsplit := (List.pairwise_append.mp hpw2).2.2
    have hedrop : e ∈ (List.insertionSort (descBy (Prod.snd : Str × ℤ → ℤ))
        (scoreMap simf event kb)).drop topN := by
      rcases List.mem_append.mp (by rw [hdecomp]; exact heS) with h | h
      · exact absurd (List.mem_map.mpr ⟨e, h, he1⟩) hout
      · exact h
    obtain ⟨f, hf, hf1⟩ := List.mem_map.mp hat
    have hr := hsplit f hf e hedrop
    rw [← he1, ← hf1, hval e he, hval f (htakemem f hf)]
    exact hr
  · intro hz
    rcases hsm : scoreMap simf event kb with _ | ⟨e, rest⟩
    · unfold map_event_to_techniques_smart
      rw [hsm]
      simp
    · exfalso
      have hepos : 0 < e.2 := scoreMap_pos simf event kb e (by rw [hsm]; simp)
      have hev : getScore (scoreMap simf event kb) e.1 = e.2 :=
        hval e (by rw [hsm]; simp)
      have := hz e.1
      omega

/-- C4, witness: the score formula and top-N length at a one-technique
knowledge base with event text "powershell". -/
theorem c4_matcher_witness :
    getScore (scoreMap (fun _ _ => 0) "powershell".toList [("T1059.001".toList, { name := "PowerShell".toList, tactics := [] })]) "T1059.001".toList = tokenScore "powershell".toList { name := "PowerShell".toList, tactics := [] } + nameScore (fun _ _ => 0) "powershell".toList { name := "PowerShell".toList, tactics := [] } ∧
    (map_event_to_techniques_smart (fun _ _ => 0) "powershell".toList [("T1059.001".toList, { name := "PowerShell".toList, tactics := [] })] 5).length = min 5 (scoreMap (fun _ _ => 0) "powershell".toList [("T1059.001".toList, { name := "PowerShell".toList, tactics := [] })]).length := by
  have h := c4_matcher (fun _ _ => 0) "powershell".toList
    [("T1059.001".toList, { name := "PowerShell".toList, tactics := [] })] 5 (by decide)
  exact ⟨h.1 _ _ (by decide), h.2.2.1⟩
